import Mathlib

/-!
Verification of the selective sync engine of claude-code-sync.

The Go sources are shallowly embedded over `Str := List Char`.  Strings are
modelled as lists of characters; Go's byte/rune distinction is immaterial for
the properties below, which only involve ASCII inputs.  The embedding targets
the Unix build of the program (`runtime.GOOS != "windows"`), where
`filepath.Separator` is `'/'`, `filepath.ToSlash` is the identity, and
`filepath.Base` splits on `'/'`.

External collaborators (the age encryption primitive, SHA-256, git) are taken
as opaque function parameters, and the filesystem is modelled as an
association list from path strings to file contents.
-/

/-- Strings as lists of characters. -/
abbrev Str := List Char

/-- Convert a Lean string literal to the `Str` representation. -/
def str (s : String) : Str := s.data

/-- Go `strings.ToLower`, restricted to ASCII (all inputs considered here
are ASCII, where `Char.toLower` agrees with Go's Unicode lowering). -/
def goToLower (s : Str) : Str := s.map Char.toLower

/-- Go `filepath.ToSlash`.  On the Unix build `Separator = '/'` and
`ToSlash` returns its argument unchanged. -/
def toSlash (s : Str) : Str := s

/-- Remove trailing `'/'` characters (part of Go `filepath.Base`). -/
def dropTrailingSlashes (s : Str) : Str := (s.reverse.dropWhile (· = '/')).reverse

/-- The substring after the last `'/'` (part of Go `filepath.Base`). -/
def afterLastSlash (s : Str) : Str := (s.reverse.takeWhile (· ≠ '/')).reverse

/-- Go `filepath.Base` on the Unix build: empty path gives `"."`; otherwise
trailing separators are removed; if everything was separators the result is
`"/"`; otherwise the component after the last separator. -/
def baseName (p : Str) : Str :=
  if p = [] then ['.']
  else
    let q := dropTrailingSlashes p
    if q = [] then ['/']
    else afterLastSlash q

/-- Go `strings.Split` with a single-character separator. -/
def splitOnChar (sep : Char) : Str → List Str
  | [] => [[]]
  | c :: t =>
    if c = sep then [] :: splitOnChar sep t
    else
      match splitOnChar sep t with
      | [] => [[c]]
      | h :: r => (c :: h) :: r

/-- Go `path/filepath.getEsc`: reads one (possibly `'\\'`-escaped) character
of a character-class pattern; fails on `'-'`, `']'`, exhausted input, or when
nothing follows the character read. -/
def getEsc : Str → Option (Char × Str)
  | [] => none
  | c :: rest =>
    if c = '-' ∨ c = ']' then none
    else if c = '\\' then
      match rest with
      | [] => none
      | d :: rest' => if rest' = [] then none else some (d, rest')
    else if rest = [] then none else some (c, rest)

theorem getEsc_length {s : Str} {c : Char} {s' : Str} (h : getEsc s = some (c, s')) :
    s'.length < s.length := by
  match s with
  | [] => simp [getEsc] at h
  | a :: rest =>
    simp only [getEsc] at h
    split at h
    · exact absurd h (by simp)
    · split at h
      · match rest with
        | [] => simp at h
        | d :: rest' =>
          simp only at h
          split at h
          · exact absurd h (by simp)
          · simp only [Option.some.injEq, Prod.mk.injEq] at h
            simp [← h.2]
            omega
      · split at h
        · exact absurd h (by simp)
        · simp only [Option.some.injEq, Prod.mk.injEq] at h
          simp [← h.2]

/-- Character-class loop of Go `path/filepath.Match` (the `case '['` body of
`matchChunk`): consumes ranges `lo(-hi)?` until a closing `']'`, accumulating
whether the name character `r` fell in some range. -/
def classLoop (r : Char) (matched : Bool) (nrange : Nat) (s : Str) : Option (Bool × Str) :=
  match s with
  | [] => none
  | c :: rest =>
    if c = ']' ∧ 0 < nrange then some (matched, rest)
    else
      match h1 : getEsc (c :: rest) with
      | none => none
      | some (lo, s1) =>
        match h2 : s1 with
        | '-' :: s1' =>
          match h3 : getEsc s1' with
          | none => none
          | some (hi, s2) =>
            classLoop r (matched || decide (lo ≤ r ∧ r ≤ hi)) (nrange + 1) s2
        | _ =>
          classLoop r (matched || decide (lo ≤ r ∧ r ≤ lo)) (nrange + 1) s1
termination_by s.length
decreasing_by
  · have g1 := getEsc_length h1
    have g3 := getEsc_length h3
    simp only [h2] at g1
    simp at g1 ⊢
    omega
  · have g1 := getEsc_length h1
    rw [h2]
    simpa using g1

/-- Go `path/filepath.Match` for the Unix build, as a recursive matcher:
`'*'` matches any run of non-separator characters, `'?'` one non-separator
character, `'['…`']'` a character class, `'\\'` escapes; a malformed pattern
yields `false` (Go reports `ErrBadPattern`, which `matchWildcard` discards). -/
def filepathMatch (pattern name : Str) : Bool :=
  match pattern, name with
  | [], n => n.isEmpty
  | '*' :: p, n =>
    filepathMatch p n ||
      (match n with
       | [] => false
       | c :: rest => decide (c ≠ '/') && filepathMatch ('*' :: p) rest)
  | '?' :: p, n =>
    (match n with
     | [] => false
     | c :: rest => decide (c ≠ '/') && filepathMatch p rest)
  | '[' :: p, n =>
    (match n with
     | [] => false
     | c :: rest =>
       let negated := p.head? = some '^'
       let p1 := if negated then p.tail else p
       match classLoop c false 0 p1 with
       | none => false
       | some (m, p2) => (m != negated) && filepathMatch p2 rest)
  | '\\' :: p, n =>
    (match p, n with
     | [], _ => false
     | _ :: _, [] => false
     | e :: p', c :: rest => c == e && filepathMatch p' rest)
  | a :: p, n =>
    (match n with
     | [] => false
     | c :: rest => c == a && filepathMatch p rest)
termination_by (name.length, pattern.length)

/-- Go `matchWildcard` (config.go): non-wildcard patterns compare for
equality; a two-part wildcard `prefix*suffix` is matched by prefix/suffix
containment; more complex globs fall back to `filepath.Match`. -/
def matchWildcard (s pattern : Str) : Bool :=
  if ¬ pattern.contains '*' then s == pattern
  else
    match splitOnChar '*' pattern with
    | [a, b] => a.isPrefixOf s && b.isSuffixOf s
    | _ => filepathMatch pattern s

/-- The user configuration relevant to the sync engine: the two pattern
collections and the backup retention bound (`Config` in config.go). -/
structure Config where
  encryptPatterns : List Str
  excludePatterns : List Str
  backupMaxCount : Nat

/-- Body of the loop of `Config.ShouldEncrypt` for one pattern: wildcard
patterns are tried against both the base name and the slash-normalized
relative path; exact patterns against the base name only, case-sensitively. -/
def encMatch (pattern relPath : Str) : Bool :=
  let filename := baseName relPath
  let relPathNorm := toSlash relPath
  if pattern.contains '*' then
    matchWildcard filename pattern || matchWildcard relPathNorm pattern
  else filename == pattern

/-- Go `Config.ShouldEncrypt`. -/
def shouldEncrypt (c : Config) (relPath : Str) : Bool :=
  c.encryptPatterns.any (fun pattern => encMatch pattern relPath)

/-- Body of the loop of `Config.ShouldExclude` for one pattern: wildcard
patterns are matched (lower-cased) against the base name only; exact patterns
match if the lower-cased normalized path equals the lower-cased pattern,
starts with it followed by `'/'`, or the lower-cased base name equals it. -/
def exclMatch (pattern relPath : Str) : Bool :=
  let filename := baseName relPath
  let relPathNorm := goToLower (toSlash relPath)
  let patternLower := goToLower pattern
  if pattern.contains '*' then
    matchWildcard (goToLower filename) patternLower
  else
    relPathNorm == patternLower || (patternLower ++ ['/']).isPrefixOf relPathNorm
      || goToLower filename == patternLower

/-- Go `Config.ShouldExclude`. -/
def shouldExclude (c : Config) (relPath : Str) : Bool :=
  c.excludePatterns.any (fun pattern => exclMatch pattern relPath)

/-- Unfolding of `exclMatch` into the disjunction the specification states. -/
theorem exclMatch_iff (pattern path : Str) :
    exclMatch pattern path = true ↔
      if pattern.contains '*' = true then
        matchWildcard (goToLower (baseName path)) (goToLower pattern) = true
      else
        goToLower (toSlash path) = goToLower pattern ∨
        (goToLower pattern ++ ['/']) <+: goToLower (toSlash path) ∨
        goToLower (baseName path) = goToLower pattern := by
  by_cases hc : pattern.contains '*' = true
  · simp at hc
    simp [exclMatch, hc]
  · simp at hc
    simp [exclMatch, hc, List.isPrefixOf_iff_prefix, or_assoc]

/-- C1: for every relative path and pattern set, `ShouldExclude` is true for a
non-wildcard pattern exactly when the lower-cased forward-slash-normalized
relative path equals the lower-cased pattern, starts with the pattern followed
by `'/'`, or the base name equals the pattern case-insensitively; wildcard
exclusion patterns are matched against the base name only; in particular
`plans/foo.md` is excluded under pattern `plans` while `plans-archive/foo.md`
is not. -/
theorem C1_shouldExclude_characterization :
    (∀ (encs pats : List Str) (k : Nat) (path : Str),
       shouldExclude ⟨encs, pats, k⟩ path = true ↔
         ∃ pattern ∈ pats,
           if pattern.contains '*' = true then
             matchWildcard (goToLower (baseName path)) (goToLower pattern) = true
           else
             goToLower (toSlash path) = goToLower pattern ∨
             (goToLower pattern ++ ['/']) <+: goToLower (toSlash path) ∨
             goToLower (baseName path) = goToLower pattern) ∧
    shouldExclude ⟨[], [str "plans"], 5⟩ (str "plans/foo.md") = true ∧
    shouldExclude ⟨[], [str "plans"], 5⟩ (str "plans-archive/foo.md") = false := by
  refine ⟨?_, by decide, by decide⟩
  intro encs pats k path
  simp only [shouldExclude, List.any_eq_true]
  constructor
  · rintro ⟨pattern, hmem, hmatch⟩
    exact ⟨pattern, hmem, (exclMatch_iff pattern path).mp hmatch⟩
  · rintro ⟨pattern, hmem, hcond⟩
    exact ⟨pattern, hmem, (exclMatch_iff pattern path).mpr hcond⟩

/-- C10: encrypt-pattern matching is case-sensitive while exclude-pattern
matching is case-insensitive: a non-wildcard encrypt pattern matches only a
base name equal to it exactly, so `Settings.json` is not encrypted under
pattern `settings.json`, while the same case variation of an exclude pattern
still excludes. -/
theorem C10_encrypt_case_sensitive_exclude_insensitive :
    (∀ (pattern : Str) (excls : List Str) (k : Nat) (path : Str),
       pattern.contains '*' = false →
       (shouldEncrypt ⟨[pattern], excls, k⟩ path = true ↔ baseName path = pattern)) ∧
    shouldEncrypt ⟨[str "settings.json"], [], 5⟩ (str "Settings.json") = false ∧
    shouldExclude ⟨[], [str "settings.json"], 5⟩ (str "Settings.json") = true := by
  refine ⟨?_, by decide, by decide⟩
  intro pattern excls k path hc
  simp at hc
  simp [shouldEncrypt, encMatch, hc]

/-- Witness for C10 at a concrete input: the non-wildcard pattern
`settings.json` does match the file `settings.json` itself. -/
theorem C10_encrypt_case_sensitive_exclude_insensitive_witness :
    shouldEncrypt ⟨[str "settings.json"], [], 5⟩ (str "settings.json") = true := by
  exact (C10_encrypt_case_sensitive_exclude_insensitive.1 (str "settings.json") [] 5
    (str "settings.json") (by decide)).mpr (by decide)

/-- Entry of the integrity manifest (`ManifestEntry` in sync/manifest code):
a content digest paired with a repository-relative path. -/
structure ManifestEntry where
  checksum : Str
  path : Str
deriving DecidableEq

/-- ASCII part of Go `unicode.IsSpace` (the characters `'\t'`, `'\n'`,
`'\v'`, `'\f'`, `'\r'`, `' '`; code points 9–13 and 32). -/
def isSpaceChar (c : Char) : Bool := (9 ≤ c.toNat ∧ c.toNat ≤ 13) ∨ c.toNat = 32

/-- Left half of Go `strings.TrimSpace`. -/
def trimLeft (s : Str) : Str := s.dropWhile isSpaceChar

/-- Right half of Go `strings.TrimSpace`. -/
def trimRight (s : Str) : Str := (s.reverse.dropWhile isSpaceChar).reverse

/-- Go `strings.TrimSpace` (ASCII inputs). -/
def trimSpace (s : Str) : Str := trimRight (trimLeft s)

/-- The two-space separator used between checksum and path. -/
def twoSpaces : Str := [' ', ' ']

/-- Go `strings.SplitN(s, sep, 2)` restricted to the found/not-found shape:
`some (before, after)` splitting at the first occurrence of `sep`,
`none` when `sep` does not occur (Go then returns the one-element slice). -/
def splitN2 (sep : Str) : Str → Option (Str × Str)
  | [] => none
  | c :: t =>
    if sep.isPrefixOf (c :: t) then some ([], (c :: t).drop sep.length)
    else
      match splitN2 sep t with
      | none => none
      | some (a, b) => some (c :: a, b)

/-- First manifest header line (`# claude-code-sync manifest - <timestamp>`). -/
def manifestHeader1 (ts : Str) : Str := str "# claude-code-sync manifest - " ++ ts

/-- Second manifest header line. -/
def manifestHeader2 : Str := str "# Format: checksum  path"

/-- Serialized body line of one manifest entry: `checksum<two spaces>path`. -/
def manifestLine (e : ManifestEntry) : Str := e.checksum ++ twoSpaces ++ e.path

/-- Go `strings.Join` specialised to list-of-strings with separator. -/
def interc (sep : Str) : List Str → Str
  | [] => []
  | [s] => s
  | s :: rest => s ++ sep ++ interc sep rest

/-- Go `WriteManifest` (paths.go): header line with timestamp, format line,
one line per entry, joined by `'\n'` with a final trailing newline. -/
def writeManifest (ts : Str) (entries : List ManifestEntry) : Str :=
  interc ['\n'] (manifestHeader1 ts :: manifestHeader2 :: entries.map manifestLine) ++ ['\n']

/-- Per-line parser of Go `ReadManifest`: trim, skip blank and `'#'`-prefixed
lines, split at the first two-space run (skipping lines without one). -/
def parseManifestLine (line : Str) : Option ManifestEntry :=
  let t := trimSpace line
  if t = [] then none
  else if t.head? = some '#' then none
  else
    match splitN2 twoSpaces t with
    | none => none
    | some (a, b) => some ⟨a, b⟩

/-- Go `ReadManifest` (paths.go). -/
def readManifest (s : Str) : List ManifestEntry :=
  (splitOnChar '\n' s).filterMap parseManifestLine

/-- Lower-case hexadecimal digit (`'0'`–`'9'` are code points 48–57,
`'a'`–`'f'` are 97–102), as produced by Go `hex.EncodeToString`. -/
def isHexChar (c : Char) : Bool :=
  (48 ≤ c.toNat ∧ c.toNat ≤ 57) ∨ (97 ≤ c.toNat ∧ c.toNat ≤ 102)

/-- Non-empty lower-case hexadecimal string. -/
def isHexStr (s : Str) : Bool := !s.isEmpty && s.all isHexChar

theorem splitOnChar_append (sep : Char) (l rest : Str) (h : sep ∉ l) :
    splitOnChar sep (l ++ sep :: rest) = l :: splitOnChar sep rest := by
  induction l with
  | nil => simp [splitOnChar]
  | cons c t ih =>
    have h1 : ¬ c = sep := fun he => h (by simp [he])
    have h2 : sep ∉ t := fun hm => h (by simp [hm])
    simp only [List.cons_append, splitOnChar, if_neg h1, List.append_eq]
    rw [ih h2]

theorem interc_newline_flat (ls : List Str) (h : ls ≠ []) :
    interc ['\n'] ls ++ ['\n'] = ls.flatMap (fun l => l ++ ['\n']) := by
  induction ls with
  | nil => exact absurd rfl h
  | cons l rest ih =>
    match rest with
    | [] => simp [interc]
    | l2 :: r =>
      have hrest := ih (by simp)
      have hstep : interc ['\n'] (l :: l2 :: r) = l ++ ['\n'] ++ interc ['\n'] (l2 :: r) := rfl
      rw [hstep, List.flatMap_cons, ← hrest]
      simp

theorem splitOnChar_flat (ls : List Str) (hne : ls ≠ [])
    (h : ∀ l ∈ ls, '\n' ∉ l) :
    splitOnChar '\n' (ls.flatMap (fun l => l ++ ['\n'])) = ls ++ [[]] := by
  induction ls with
  | nil => exact absurd rfl hne
  | cons l rest ih =>
    simp only [List.flatMap_cons, List.append_assoc, List.cons_append, List.nil_append]
    rw [splitOnChar_append _ _ _ (h l (by simp))]
    match rest with
    | [] => simp [splitOnChar]
    | l2 :: r =>
      rw [List.cons_append]
      congr 1
      exact ih (by simp) (fun x hx => h x (List.mem_cons_of_mem _ hx))

theorem filterMap_all_some {α : Type} (f : α → Option α) (l : List α)
    (h : ∀ x ∈ l, f x = some x) : l.filterMap f = l := by
  induction l with
  | nil => rfl
  | cons a t ih =>
    rw [List.filterMap_cons, h a (by simp), ih (fun x hx => h x (List.mem_cons_of_mem _ hx))]

theorem trimLeft_cons_of_not_space (c : Char) (r : Str) (h : isSpaceChar c = false) :
    trimLeft (c :: r) = c :: r := by
  simp [trimLeft, List.dropWhile_cons, h]

theorem trimRight_append_of_last_not_space (a s : Str) (hs : s ≠ [])
    (h : trimRight s = s) : trimRight (a ++ s) = a ++ s := by
  have hrev : s.reverse ≠ [] := by simpa using hs
  match hr : s.reverse with
  | [] => exact absurd hr hrev
  | c :: t =>
    have hcs : isSpaceChar c = false := by
      by_contra hc
      simp only [Bool.not_eq_false] at hc
      have hts : trimRight s = (t.dropWhile isSpaceChar).reverse := by
        simp [trimRight, hr, List.dropWhile_cons, hc]
      rw [h] at hts
      have hlen := congrArg List.length hts
      have htl : t.length + 1 = s.length := by
        have hh := congrArg List.length hr
        simpa using hh.symm
      have hd : (t.dropWhile isSpaceChar).length ≤ t.length :=
        (List.dropWhile_sublist isSpaceChar).length_le
      simp at hlen
      omega
    have hra : (a ++ s).reverse = c :: (t ++ a.reverse) := by
      rw [List.reverse_append, hr]
      simp
    rw [trimRight, hra, List.dropWhile_cons]
    simp only [hcs, Bool.false_eq_true, if_false]
    rw [← hra]
    simp

theorem hexChar_not_space {c : Char} (h : isHexChar c = true) : isSpaceChar c = false := by
  simp only [isHexChar, decide_eq_true_eq] at h
  simp only [isSpaceChar, decide_eq_false_iff_not]
  omega

theorem trim_eq_self_parts {p : Str} (htrim : trimSpace p = p) :
    trimLeft p = p ∧ trimRight p = p := by
  have h1 : (trimLeft p).length ≤ p.length :=
    (List.dropWhile_sublist isSpaceChar).length_le
  have h2 : (trimRight (trimLeft p)).length ≤ (trimLeft p).length := by
    have := (List.dropWhile_sublist isSpaceChar (l := (trimLeft p).reverse)).length_le
    simpa [trimRight] using this
  have hlen := congrArg List.length htrim
  simp only [trimSpace] at hlen
  have hTL : trimLeft p = p := by
    have hsub : (trimLeft p).Sublist p := List.dropWhile_sublist isSpaceChar
    exact hsub.eq_of_length (by omega)
  constructor
  · exact hTL
  · have := htrim
    rw [trimSpace, hTL] at this
    exact this

theorem trimSpace_manifestLine (e : ManifestEntry)
    (hhex : isHexStr e.checksum = true) (hp : e.path ≠ [])
    (htrim : trimSpace e.path = e.path) :
    trimSpace (manifestLine e) = manifestLine e := by
  have htr : trimRight e.path = e.path := (trim_eq_self_parts htrim).2
  match hc : e.checksum with
  | [] => rw [hc] at hhex; simp [isHexStr] at hhex
  | c :: cs =>
    have hcspace : isSpaceChar c = false := by
      apply hexChar_not_space
      rw [hc] at hhex
      simp only [isHexStr, Bool.and_eq_true, List.all_cons] at hhex
      exact hhex.2.1
    have hline : manifestLine e = c :: (cs ++ twoSpaces ++ e.path) := by
      simp [manifestLine, hc]
    rw [trimSpace, hline, trimLeft_cons_of_not_space _ _ hcspace, ← hline]
    have hsplit : manifestLine e = (e.checksum ++ twoSpaces) ++ e.path := by
      simp [manifestLine]
    rw [hsplit]
    exact trimRight_append_of_last_not_space _ _ hp htr

theorem splitN2_junction (chk p : Str) (hchk : ∀ c ∈ chk, c ≠ ' ') :
    splitN2 twoSpaces (chk ++ twoSpaces ++ p) = some (chk, p) := by
  induction chk with
  | nil => simp [splitN2, twoSpaces, List.isPrefixOf]
  | cons c t ih =>
    have hc : ¬ c = ' ' := hchk c (by simp)
    have hpre : twoSpaces.isPrefixOf (c :: (t ++ twoSpaces ++ p)) = false := by
      simp only [twoSpaces, List.isPrefixOf, Bool.and_eq_false_iff, beq_eq_false_iff_ne]
      exact Or.inl (Ne.symm hc)
    simp only [List.cons_append, List.append_assoc, splitN2, List.append_eq] at hpre ⊢
    rw [hpre]
    simp only [Bool.false_eq_true, if_false]
    have := ih (fun x hx => hchk x (List.mem_cons_of_mem _ hx))
    simp only [List.append_assoc] at this
    rw [this]

theorem trimRight_prefix (s : Str) : trimRight s <+: s := by
  have h : (s.reverse.dropWhile isSpaceChar) <:+ s.reverse := List.dropWhile_suffix isSpaceChar
  have h2 := h.reverse
  simpa [trimRight] using h2

theorem parseManifestLine_hash (r : Str) : parseManifestLine ('#' :: r) = none := by
  have hsharp : isSpaceChar '#' = false := by decide
  have htl : trimLeft ('#' :: r) = '#' :: r := trimLeft_cons_of_not_space _ _ hsharp
  have hpre : trimSpace ('#' :: r) <+: ('#' :: r) := by
    rw [trimSpace, htl]
    exact trimRight_prefix _
  rw [parseManifestLine]
  match ht : trimSpace ('#' :: r) with
  | [] => simp
  | c :: t' =>
    rw [ht] at hpre
    have hc : c = '#' := (List.cons_prefix_cons.mp hpre).1
    simp [hc]

theorem hexChar_ne_space {c : Char} (h : isHexChar c = true) : c ≠ ' ' := by
  intro he
  rw [he] at h
  exact absurd h (by decide)

theorem hexChar_ne_newline {c : Char} (h : isHexChar c = true) : c ≠ '\n' := by
  intro he
  rw [he] at h
  exact absurd h (by decide)

theorem hexChar_ne_hash {c : Char} (h : isHexChar c = true) : c ≠ '#' := by
  intro he
  rw [he] at h
  exact absurd h (by decide)

theorem parseManifestLine_entry (e : ManifestEntry)
    (hhex : isHexStr e.checksum = true) (hp : e.path ≠ [])
    (htrim : trimSpace e.path = e.path) :
    parseManifestLine (manifestLine e) = some e := by
  have htt : trimSpace (manifestLine e) = manifestLine e :=
    trimSpace_manifestLine e hhex hp htrim
  rw [parseManifestLine, htt]
  match hc : e.checksum with
  | [] => rw [hc] at hhex; simp [isHexStr] at hhex
  | c :: cs =>
    have hall : ∀ x ∈ e.checksum, isHexChar x = true := by
      intro x hx
      simp only [isHexStr, Bool.and_eq_true, List.all_eq_true] at hhex
      exact hhex.2 x hx
    have hcx : isHexChar c = true := hall c (by rw [hc]; simp)
    have hline : manifestLine e = c :: (cs ++ twoSpaces ++ e.path) := by
      simp [manifestLine, hc]
    have hne : manifestLine e ≠ [] := by rw [hline]; simp
    have hhead : (manifestLine e).head? = some c := by rw [hline]; rfl
    rw [if_neg hne, hhead]
    have hch : ¬ (some c = some '#') := by
      simp only [Option.some.injEq]
      exact hexChar_ne_hash hcx
    rw [if_neg hch]
    have hj : splitN2 twoSpaces (e.checksum ++ twoSpaces ++ e.path) = some (e.checksum, e.path) :=
      splitN2_junction _ _ (fun x hx => hexChar_ne_space (hall x hx))
    rw [manifestLine, hj]

theorem flatMap_map_newline (entries : List ManifestEntry) :
    (entries.map manifestLine).flatMap (fun l => l ++ ['\n']) =
      entries.flatMap (fun e => manifestLine e ++ ['\n']) := by
  induction entries with
  | nil => rfl
  | cons e t ih => simp only [List.map_cons, List.flatMap_cons, ih]

theorem filterMap_parse_map (entries : List ManifestEntry)
    (hent : ∀ e ∈ entries, isHexStr e.checksum = true ∧ e.path ≠ [] ∧
        '\n' ∉ e.path ∧ trimSpace e.path = e.path) :
    (entries.map manifestLine).filterMap parseManifestLine = entries := by
  induction entries with
  | nil => rfl
  | cons e t ih =>
    rw [List.map_cons, List.filterMap_cons]
    have he := hent e (by simp)
    rw [parseManifestLine_entry e he.1 he.2.1 he.2.2.2]
    rw [ih (fun x hx => hent x (List.mem_cons_of_mem _ hx))]

/-- C7: reading back a written manifest is the identity on entries whose
checksums are non-empty hex strings and whose paths are non-empty,
newline-free and without surrounding whitespace; the written file consists of
two `'#'` comment lines followed by one `checksum<two spaces>path` line per
entry, each line newline-terminated. -/
theorem C7_manifest_roundtrip :
    ∀ (ts : Str) (entries : List ManifestEntry),
      '\n' ∉ ts →
      (∀ e ∈ entries, isHexStr e.checksum = true ∧ e.path ≠ [] ∧
        '\n' ∉ e.path ∧ trimSpace e.path = e.path) →
      readManifest (writeManifest ts entries) = entries ∧
      writeManifest ts entries =
        manifestHeader1 ts ++ '\n' :: (manifestHeader2 ++ '\n' ::
          entries.flatMap (fun e => manifestLine e ++ ['\n'])) ∧
      (manifestHeader1 ts).head? = some '#' ∧ manifestHeader2.head? = some '#' := by
  intro ts entries hts hent
  have hnl : ∀ l ∈ manifestHeader1 ts :: manifestHeader2 :: entries.map manifestLine,
      '\n' ∉ l := by
    intro l hl
    simp only [List.mem_cons] at hl
    rcases hl with rfl | rfl | hl
    · intro hin
      rw [manifestHeader1] at hin
      rcases List.mem_append.mp hin with h | h
      · exact absurd h (by decide)
      · exact hts h
    · exact by decide
    · rcases List.mem_map.mp hl with ⟨e, hem, rfl⟩
      have he := hent e hem
      intro hin
      rw [manifestLine] at hin
      rcases List.mem_append.mp hin with h | h
      · rcases List.mem_append.mp h with h2 | h2
        · have hx : isHexChar '\n' = true := by
            simp only [isHexStr, Bool.and_eq_true, List.all_eq_true] at he
            exact he.1.2 _ h2
          exact absurd hx (by decide)
        · exact absurd h2 (by decide)
      · exact he.2.2.1 h
  have hflat : writeManifest ts entries =
      (manifestHeader1 ts :: manifestHeader2 :: entries.map manifestLine).flatMap
        (fun l => l ++ ['\n']) := by
    rw [writeManifest]
    exact interc_newline_flat _ (by simp)
  have hmapflat := flatMap_map_newline entries
  have hflat2 : writeManifest ts entries =
      manifestHeader1 ts ++ '\n' :: (manifestHeader2 ++ '\n' ::
        entries.flatMap (fun e => manifestLine e ++ ['\n'])) := by
    rw [hflat, List.flatMap_cons, List.flatMap_cons, hmapflat]
    simp
  have hh1zero : manifestHeader1 ts = '#' :: (str " claude-code-sync manifest - " ++ ts) := rfl
  have hread : readManifest (writeManifest ts entries) = entries := by
    rw [readManifest, hflat, splitOnChar_flat _ (by simp) hnl, List.filterMap_append]
    have htail : List.filterMap parseManifestLine [([] : Str)] = [] := by
      simp [parseManifestLine, trimSpace, trimLeft, trimRight]
    rw [htail, List.append_nil, List.filterMap_cons, List.filterMap_cons]
    have hh1 : parseManifestLine (manifestHeader1 ts) = none := by
      rw [hh1zero]
      exact parseManifestLine_hash _
    have hh2 : parseManifestLine manifestHeader2 = none := by
      have h2eq : manifestHeader2 = '#' :: str " Format: checksum  path" := rfl
      rw [h2eq]
      exact parseManifestLine_hash _
    rw [hh1, hh2]
    exact filterMap_parse_map entries hent
  exact ⟨hread, hflat2, by rw [hh1zero]; rfl, rfl⟩

/-- Witness for C7 at a concrete manifest with two entries (one of the paths
containing an inner single space). -/
theorem C7_manifest_roundtrip_witness :
    readManifest (writeManifest (str "2025-01-02T03:04:05Z")
        [⟨str "ab12", str "CLAUDE.md"⟩, ⟨str "0f0f", str "agents/code review.md"⟩]) =
      [⟨str "ab12", str "CLAUDE.md"⟩, ⟨str "0f0f", str "agents/code review.md"⟩] := by
  exact (C7_manifest_roundtrip (str "2025-01-02T03:04:05Z")
    [⟨str "ab12", str "CLAUDE.md"⟩, ⟨str "0f0f", str "agents/code review.md"⟩]
    (by decide) (by decide)).1

/-- Filesystem model: an association list from path strings to file
contents (first binding wins). -/
abbrev FS := List (Str × Str)

/-- Look up the content stored at a path. -/
def fsGet : FS → Str → Option Str
  | [], _ => none
  | (q, d) :: r, p => if q = p then some d else fsGet r p

/-- Model of `sync.FileExists`. -/
def fsExists (fs : FS) (p : Str) : Bool := (fsGet fs p).isSome

/-- Write (create or overwrite) the content at a path. -/
def fsWrite : FS → Str → Str → FS
  | [], p, c => [(p, c)]
  | (q, d) :: r, p, c => if q = p then (p, c) :: r else (q, d) :: fsWrite r p c

theorem fsGet_fsWrite_same (fs : FS) (p c : Str) : fsGet (fsWrite fs p c) p = some c := by
  induction fs with
  | nil => simp [fsWrite, fsGet]
  | cons qd r ih =>
    obtain ⟨q, d⟩ := qd
    by_cases h : q = p
    · simp [fsWrite, fsGet, h]
    · simp [fsWrite, fsGet, h, ih]

theorem fsGet_fsWrite_other (fs : FS) (p c q : Str) (h : q ≠ p) :
    fsGet (fsWrite fs p c) q = fsGet fs q := by
  induction fs with
  | nil => simp [fsWrite, fsGet, Ne.symm h]
  | cons rd r ih =>
    obtain ⟨a, d⟩ := rd
    by_cases ha : a = p
    · subst ha
      simp [fsWrite, fsGet, Ne.symm h]
    · by_cases hq : a = q
      · subst hq
        simp [fsWrite, fsGet, ha]
      · simp [fsWrite, fsGet, ha, hq, ih]

/-- Per-entry classification of `runVerify` (verify.go): Missing when the
file is absent, Mismatch when its digest differs from the recorded checksum,
OK otherwise. -/
inductive VerifyStatus where
  | ok
  | missing
  | mismatch
deriving DecidableEq

/-- Classification of one manifest entry against the repository content,
mirroring the body of the loop in `runVerify`. -/
def verifyEntry (hash : Str → Str) (repo : FS) (e : ManifestEntry) : VerifyStatus :=
  match fsGet repo e.path with
  | none => .missing
  | some c => if hash c ≠ e.checksum then .mismatch else .ok

/-- Go `runVerify` (verify.go), given the already-read manifest entries: the
per-entry reports in order, and the final outcome — success when no entry
failed, otherwise an error carrying the number of discrepancies. -/
def runVerify (hash : Str → Str) (repo : FS) (entries : List ManifestEntry) :
    List (Str × VerifyStatus) × Except Nat Unit :=
  let reports := entries.map (fun e => (e.path, verifyEntry hash repo e))
  let errors := reports.countP (fun r => decide (r.2 ≠ VerifyStatus.ok))
  (reports, if errors = 0 then .ok () else .error errors)

/-- C8: verify classifies every manifest entry as OK, Missing or Mismatch
(with the stated meanings), reports only paths that occur in the manifest,
succeeds exactly when every entry is OK, and any error carries the number of
discrepant entries (which is then positive); the repository is only read. -/
theorem C8_verify_reports_and_outcome :
    ∀ (hash : Str → Str) (repo : FS) (entries : List ManifestEntry),
      ((runVerify hash repo entries).1.length = entries.length) ∧
      (∀ e ∈ entries,
        (verifyEntry hash repo e = .missing ↔ fsGet repo e.path = none) ∧
        (verifyEntry hash repo e = .mismatch ↔
          ∃ c, fsGet repo e.path = some c ∧ hash c ≠ e.checksum) ∧
        (verifyEntry hash repo e = .ok ↔
          ∃ c, fsGet repo e.path = some c ∧ hash c = e.checksum)) ∧
      (∀ p s, (p, s) ∈ (runVerify hash repo entries).1 → ∃ e ∈ entries, e.path = p) ∧
      ((runVerify hash repo entries).2 = .ok () ↔
        ∀ e ∈ entries, verifyEntry hash repo e = .ok) ∧
      (∀ n, (runVerify hash repo entries).2 = .error n →
        n = entries.countP (fun e => decide (verifyEntry hash repo e ≠ VerifyStatus.ok)) ∧
          0 < n) := by
  intro hash repo entries
  have hcount : (entries.map (fun e => (e.path, verifyEntry hash repo e))).countP
      (fun r => decide (r.2 ≠ VerifyStatus.ok)) =
      entries.countP (fun e => decide (verifyEntry hash repo e ≠ VerifyStatus.ok)) := by
    rw [List.countP_map]
    rfl
  refine ⟨by simp [runVerify], ?_, ?_, ?_, ?_⟩
  · intro e _
    refine ⟨?_, ?_, ?_⟩
    · rw [verifyEntry]
      match h : fsGet repo e.path with
      | none => simp
      | some c =>
        simp only
        split <;> simp
    · rw [verifyEntry]
      match h : fsGet repo e.path with
      | none => simp
      | some c =>
        simp only
        split <;> rename_i hd <;> simp_all
    · rw [verifyEntry]
      match h : fsGet repo e.path with
      | none => simp
      | some c =>
        simp only
        split <;> rename_i hd <;> simp_all
  · intro p s hmem
    simp only [runVerify, List.mem_map] at hmem
    obtain ⟨e, he, heq⟩ := hmem
    exact ⟨e, he, by simpa using congrArg Prod.fst heq⟩
  · simp only [runVerify, hcount]
    split <;> rename_i hz
    · simp only [true_iff]
      rw [List.countP_eq_zero] at hz
      intro e he
      have := hz e he
      simpa using this
    · simp only [reduceCtorEq, false_iff, not_forall]
      rw [List.countP_eq_zero] at hz
      push_neg at hz
      obtain ⟨e, he, hne⟩ := hz
      exact ⟨e, he, by simpa using hne⟩
  · intro n hn
    simp only [runVerify, hcount] at hn
    split at hn
    · exact absurd hn (by simp)
    · rename_i hz
      simp only [Except.error.injEq] at hn
      subst hn
      exact ⟨rfl, Nat.pos_of_ne_zero hz⟩

/-- Byte-wise lexicographic order on names, the order in which Go
`os.ReadDir` returns directory entries. -/
def lexLe : Str → Str → Bool
  | [], _ => true
  | _ :: _, [] => false
  | a :: s, b :: t => if a = b then lexLe s t else decide (a < b)

theorem lexLe_trans : ∀ (a b c : Str), lexLe a b = true → lexLe b c = true → lexLe a c = true := by
  intro a
  induction a with
  | nil => intro b c _ _; rfl
  | cons x s ih =>
    intro b c hab hbc
    match b with
    | [] => exact absurd hab (by simp [lexLe])
    | y :: t =>
      match c with
      | [] => exact absurd hbc (by simp [lexLe])
      | z :: u =>
        simp only [lexLe] at hab hbc ⊢
        by_cases hxy : x = y
        · subst hxy
          by_cases hyz : x = z
          · subst hyz
            simp only [if_pos rfl] at hab hbc ⊢
            exact ih t u hab hbc
          · simp only [if_pos rfl] at hab
            simp only [if_neg hyz] at hbc ⊢
            exact hbc
        · by_cases hyz : y = z
          · subst hyz
            simp only [if_neg hxy] at hab ⊢
            exact hab
          · simp only [if_neg hxy] at hab
            simp only [if_neg hyz] at hbc
            have hxz : x < z := lt_trans (of_decide_eq_true hab) (of_decide_eq_true hbc)
            rw [if_neg (ne_of_lt hxz)]
            exact decide_eq_true hxz

theorem lexLe_total : ∀ (a b : Str), (lexLe a b || lexLe b a) = true := by
  intro a
  induction a with
  | nil => intro b; simp [lexLe]
  | cons x s ih =>
    intro b
    match b with
    | [] => simp [lexLe]
    | y :: t =>
      simp only [lexLe]
      by_cases hxy : x = y
      · subst hxy
        simp only [if_pos rfl]
        exact ih t
      · rcases lt_or_gt_of_ne hxy with h | h
        · simp [if_neg hxy, h]
        · simp [if_neg hxy, if_neg (Ne.symm hxy), h, ne_of_lt, le_of_lt]

theorem filter_not_contains_append (xs ys : List Str) (hd : ∀ b ∈ ys, b ∉ xs) :
    List.filter (fun n => !(xs.contains n)) (xs ++ ys) = ys := by
  rw [List.filter_append]
  have h1 : List.filter (fun n => !(xs.contains n)) xs = [] := by
    rw [List.filter_eq_nil_iff]
    intro a ha
    have hc : xs.contains a = true := List.elem_iff.mpr ha
    rw [hc]
    simp
  have h2 : List.filter (fun n => !(xs.contains n)) ys = ys := by
    rw [List.filter_eq_self]
    intro a ha
    have hc : xs.contains a = false := by
      by_contra hcc
      simp only [Bool.not_eq_false] at hcc
      exact hd a ha (List.elem_iff.mp hcc)
    rw [hc]
    rfl
  rw [h1, h2, List.nil_append]

/-- Filter of `pruneBackups` (pull.go): names shaped `backup-*.zip`. -/
def isBackupName (n : Str) : Bool :=
  (str "backup-").isPrefixOf n && (str ".zip").isSuffixOf n

/-- Go `pruneBackups` (pull.go): list the directory (`os.ReadDir` returns
entries sorted by name), keep the `backup-*.zip` names, and when more than
`maxCount` are present remove the first (lexicographically smallest)
`len - maxCount` of them.  Returns the remaining directory contents and the
removed names. -/
def pruneBackups (dir : List Str) (k : Nat) : List Str × List Str :=
  let backups := (dir.mergeSort lexLe).filter isBackupName
  if backups.length ≤ k then (dir, [])
  else
    let removed := backups.take (backups.length - k)
    (dir.filter (fun n => !(removed.contains n)), removed)

/-- C9: after pruning with maximum count `k` over a duplicate-free directory
listing, at most `k` backup archives remain; the removed names are exactly
the excess lexicographically-smallest ones (the sorted backup list is indeed
sorted), a backup name is kept exactly when it lies in the lexicographically
largest `k`; and when there are at most `k` backups nothing is removed. -/
theorem C9_pruneBackups_keeps_most_recent :
    ∀ (dir : List Str) (k : Nat), dir.Nodup →
      (((pruneBackups dir k).1.filter isBackupName).length ≤ k ∧
       (pruneBackups dir k).2 =
         (if ((dir.mergeSort lexLe).filter isBackupName).length ≤ k then []
          else ((dir.mergeSort lexLe).filter isBackupName).take
            (((dir.mergeSort lexLe).filter isBackupName).length - k)) ∧
       List.Pairwise (fun a b => lexLe a b = true)
         ((dir.mergeSort lexLe).filter isBackupName) ∧
       (∀ b ∈ dir, isBackupName b = true →
         (b ∈ (pruneBackups dir k).1 ↔
           b ∈ ((dir.mergeSort lexLe).filter isBackupName).drop
             (((dir.mergeSort lexLe).filter isBackupName).length - k))) ∧
       (((dir.mergeSort lexLe).filter isBackupName).length ≤ k →
         pruneBackups dir k = (dir, []))) := by
  intro dir k hnodup
  have hperm : ((dir.mergeSort lexLe).filter isBackupName).Perm (dir.filter isBackupName) :=
    (List.mergeSort_perm dir lexLe).filter isBackupName
  have hsortednodup : ((dir.mergeSort lexLe).filter isBackupName).Nodup :=
    (((List.mergeSort_perm dir lexLe).nodup_iff).mpr hnodup).filter isBackupName
  have hsorted : List.Pairwise (fun a b => lexLe a b = true)
      ((dir.mergeSort lexLe).filter isBackupName) :=
    (List.sorted_mergeSort lexLe_trans lexLe_total dir).filter isBackupName
  set B := (dir.mergeSort lexLe).filter isBackupName with hB
  have hmemB : ∀ b ∈ dir, isBackupName b = true → b ∈ B := by
    intro b hb hisb
    exact hperm.mem_iff.mpr (List.mem_filter.mpr ⟨hb, hisb⟩)
  by_cases hle : B.length ≤ k
  · have hres : pruneBackups dir k = (dir, []) := by
      rw [pruneBackups]
      simp only [← hB, List.append_nil]
      rw [if_pos hle]
    refine ⟨?_, ?_, hsorted, ?_, fun _ => hres⟩
    · rw [hres]
      calc (dir.filter isBackupName).length = B.length := hperm.length_eq.symm
        _ ≤ k := hle
    · rw [hres, if_pos hle]
    · intro b hb hisb
      rw [hres]
      have h0 : B.length - k = 0 := by omega
      rw [h0, List.drop_zero]
      exact ⟨fun _ => hmemB b hb hisb, fun _ => hb⟩
  · have hres : pruneBackups dir k =
        (dir.filter (fun n => !((B.take (B.length - k)).contains n)), B.take (B.length - k)) := by
      rw [pruneBackups]
      simp only [← hB]
      rw [if_neg hle]
    have hsplit : B.take (B.length - k) ++ B.drop (B.length - k) = B :=
      List.take_append_drop _ _
    have hdisj : ∀ b ∈ B.drop (B.length - k), b ∉ B.take (B.length - k) := by
      have hnd : (B.take (B.length - k) ++ B.drop (B.length - k)).Nodup := by
        rw [hsplit]; exact hsortednodup
      have := (List.nodup_append.mp hnd).2.2
      intro b hbd hbt
      exact this hbt hbd
    refine ⟨?_, ?_, hsorted, ?_, fun hc => absurd hc hle⟩
    · rw [hres]
      simp only [List.filter_filter]
      have hcomm : dir.filter (fun a => isBackupName a && !((B.take (B.length - k)).contains a)) =
          dir.filter (fun a => !((B.take (B.length - k)).contains a) && isBackupName a) :=
        List.filter_congr (fun a _ => Bool.and_comm _ _)
      rw [hcomm, ← List.filter_filter]
      have hpf : (List.filter (fun n => !((B.take (B.length - k)).contains n))
          (dir.filter isBackupName)).Perm
          (List.filter (fun n => !((B.take (B.length - k)).contains n)) B) :=
        hperm.symm.filter _
      rw [hpf.length_eq]
      have hfB := filter_not_contains_append (B.take (B.length - k)) (B.drop (B.length - k)) hdisj
      rw [hsplit] at hfB
      rw [hfB, List.length_drop]
      omega
    · rw [hres, if_neg hle]
    · intro b hb hisb
      rw [hres]
      simp only [List.mem_filter, Bool.not_eq_true', ← Bool.not_eq_true]
      constructor
      · rintro ⟨-, hnc⟩
        have hnt : b ∉ B.take (B.length - k) := fun hm => hnc (List.elem_iff.mpr hm)
        have hbB := hmemB b hb hisb
        rw [← hsplit] at hbB
        rcases List.mem_append.mp hbB with h | h
        · exact absurd h hnt
        · exact h
      · intro hdrop
        refine ⟨hb, ?_⟩
        intro hcon
        exact hdisj b hdrop (List.elem_iff.mp hcon)

/-- Witness for C9 at a concrete directory: with `k = 2` and three backups
plus an unrelated file, the two lexicographically largest backups survive. -/
theorem C9_pruneBackups_keeps_most_recent_witness :
    ([str "backup-20250101-000000.zip", str "keyfile",
      str "backup-20250103-000000.zip", str "backup-20250102-000000.zip"].Nodup) ∧
    (((pruneBackups [str "backup-20250101-000000.zip", str "keyfile",
        str "backup-20250103-000000.zip", str "backup-20250102-000000.zip"] 2).1.filter
        isBackupName).length ≤ 2) := by
  refine ⟨by decide, ?_⟩
  exact (C9_pruneBackups_keeps_most_recent
    [str "backup-20250101-000000.zip", str "keyfile",
      str "backup-20250103-000000.zip", str "backup-20250102-000000.zip"] 2 (by decide)).1

/-- Conflict strategy of `runPull` (pull command): remote-wins (default),
local-wins, or preview-only. -/
inductive Strategy where
  | theirs
  | ours
  | diff
deriving DecidableEq

/-- Argument-validation prefix of `runPull`: counts the `--ours`, `--theirs`
and `--diff` flags, fails when more than one is set, and otherwise determines
the strategy (default `theirs`).  The `--dry-run` flag is read by `runPull`
but plays no part in this check. -/
def runPullArgCheck (ours theirs diff dryRun : Bool) : Except Unit Strategy :=
  let flagCount := (if ours then 1 else 0) + (if theirs then 1 else 0) + (if diff then 1 else 0)
  if flagCount > 1 then .error ()
  else .ok (if ours then .ours else if diff then .diff else .theirs)

/-- C2 counterexample: requesting `--ours` together with `--dry-run` (two of
the claim's non-default modes) passes validation and selects the Ours
strategy, instead of failing with an invalid-arguments error. -/
theorem C2_pull_flag_exclusivity_counterexample :
    runPullArgCheck true false false true = .ok .ours := rfl

/-- C2 (amended): pull argument validation fails exactly when more than one
of the `--ours`, `--theirs`, `--diff` flags is set (the default-behaviour
flag `--theirs` is counted); `--dry-run` is not part of the exclusivity check
and never affects validation, and with at most one of the three flags set the
operation proceeds past argument validation. -/
theorem C2_pull_flag_exclusivity :
    ∀ ours theirs diff dryRun : Bool,
      (runPullArgCheck ours theirs diff dryRun = .error () ↔
        1 < (if ours then 1 else 0) + (if theirs then 1 else 0) + (if diff then 1 else 0)) ∧
      runPullArgCheck ours theirs diff dryRun = runPullArgCheck ours theirs diff (!dryRun) := by
  intro ours theirs diff dryRun
  cases ours <;> cases theirs <;> cases diff <;> cases dryRun <;>
    simp [runPullArgCheck]

/-- Encrypted-file suffix appended by push and stripped by pull. -/
def ageSuffix : Str := str ".age"

/-- Local configuration directory (`paths.ClaudeDir`). -/
def claudeDirPath : Str := str "~/.claude"

/-- The extra top-level config file (`paths.ClaudeJSON`). -/
def claudeJSONPath : Str := str "~/.claude.json"

/-- `filepath.Join(paths.ClaudeDir, rel)`. -/
def joinClaude (rel : Str) : Str := claudeDirPath ++ '/' :: rel

/-- Backup sibling name produced by `sync.BackupFile`:
`dest + ".local-backup-" + timestamp`. -/
def backupName (dest ts : Str) : Str := dest ++ str ".local-backup-" ++ ts

/-- Go `strings.TrimSuffix`. -/
def trimSuffix (s suffix : Str) : Str :=
  if suffix.isSuffixOf s then s.take (s.length - suffix.length) else s

/-- The two platforms distinguished by platform.go. -/
inductive Platform where
  | windows
  | unix
deriving DecidableEq

/-- Go `strings.Contains(s, pat)`: whether `pat` occurs as a substring. -/
def containsSub (s pat : Str) : Bool :=
  match s with
  | [] => pat.isEmpty
  | _ :: t => pat.isPrefixOf s || containsSub t pat

theorem containsSub_iff (s pat : Str) : containsSub s pat = true ↔ pat <:+: s := by
  induction s with
  | nil =>
    simp only [containsSub, List.isEmpty_iff]
    constructor
    · rintro rfl; exact List.nil_infix
    · intro h; exact List.eq_nil_of_infix_nil h
  | cons c t ih =>
    simp only [containsSub, Bool.or_eq_true, List.isPrefixOf_iff_prefix, ih,
      List.infix_cons_iff]

/-- Go `sync.GetPlatformSuffix`: platform tag embedded in the base name. -/
def getPlatformSuffix (filename : Str) : Option Platform :=
  let base := baseName filename
  if containsSub base (str ".windows.") then some .windows
  else if containsSub base (str ".unix.") then some .unix
  else none

/-- Go `sync.ShouldSkipForPlatform`: true only for a variant of the other
platform; untagged files are never skipped. -/
def shouldSkipForPlatform (current : Platform) (filename : Str) : Bool :=
  match getPlatformSuffix filename with
  | none => false
  | some p => decide (p ≠ current)

/-- Destination path chosen by the encrypted branch of the pull loop (the
local variable `dest` there): the logical name `claude.json` maps to the
external top-level file, all other logical paths map under the local config
directory. -/
def encDest (relPath : Str) : Str :=
  if trimSuffix relPath ageSuffix = str "claude.json" then claudeJSONPath
  else joinClaude (trimSuffix relPath ageSuffix)

/-- Result of processing one repository file during pull: the updated local
filesystem, whether the file was counted as processed, and whether a
`.local-backup-<timestamp>` copy of the destination was created. -/
structure PullRes where
  fs : FS
  counted : Bool
  backedUp : Bool
deriving DecidableEq

/-- Body of the per-file loop of `runPull` (pull command with conflict
strategies): skip VCS metadata, the manifest and the root README; skip when
the suffix-stripped logical path is excluded or is a variant for another
platform; then dispatch on the `.age` suffix.  Encrypted files map
`claude.json` to the external top-level file, back up an existing
destination unconditionally under Theirs, and write the decrypted content;
plain files compare digests and back up only a differing destination. -/
def pullFileStep (decrypt hash : Str → Str) (ts : Str) (current : Platform)
    (cfg : Config) (strategy : Strategy) (dryRun : Bool) (fs : FS)
    (relPath content : Str) : PullRes :=
  if (str ".git").isPrefixOf relPath ∨ relPath = str ".sync-manifest" ∨
      relPath = str "README.md" then
    ⟨fs, false, false⟩
  else
    let basePath := trimSuffix relPath ageSuffix
    if shouldExclude cfg basePath then ⟨fs, false, false⟩
    else if shouldSkipForPlatform current basePath then ⟨fs, false, false⟩
    else if ageSuffix.isSuffixOf relPath then
      let dest := encDest relPath
      if dryRun then ⟨fs, true, false⟩
      else if strategy = .diff then ⟨fs, true, false⟩
      else if fsExists fs dest ∧ strategy = .ours then ⟨fs, true, false⟩
      else
        match fsGet fs dest with
        | some d =>
          ⟨fsWrite (fsWrite fs (backupName dest ts) d) dest (decrypt content), true, true⟩
        | none => ⟨fsWrite fs dest (decrypt content), true, false⟩
    else
      let dest := joinClaude relPath
      if dryRun then ⟨fs, true, false⟩
      else
        match fsGet fs dest with
        | none =>
          if strategy = .diff then ⟨fs, true, false⟩
          else ⟨fsWrite fs dest content, true, false⟩
        | some d =>
          if strategy = .diff then
            (if hash content ≠ hash d then ⟨fs, true, false⟩ else ⟨fs, false, false⟩)
          else if hash content ≠ hash d ∧ strategy = .ours then ⟨fs, true, false⟩
          else if hash content ≠ hash d then
            ⟨fsWrite (fsWrite fs (backupName dest ts) d) dest content, true, true⟩
          else ⟨fs, true, false⟩

theorem append_ne_self (l m : Str) (hm : m ≠ []) : l ++ m ≠ l := by
  intro h
  have hlen := congrArg List.length h
  simp only [List.length_append] at hlen
  have : m.length = 0 := by omega
  exact hm (List.length_eq_zero.mp this)

theorem backupName_ne_dest (dest ts : Str) : backupName dest ts ≠ dest := by
  rw [backupName, List.append_assoc]
  exact append_ne_self _ _ (by simp [str])

/-- Body of the per-file loop of `runPush` (push.go): excluded files are
skipped (and not counted) before encryption is considered; otherwise the file
is encrypted to `relPath + ".age"` or copied verbatim, and counted. -/
def pushFileStep (enc : Str → Str) (cfg : Config) (dryRun : Bool) (repo : FS)
    (relPath content : Str) : FS × Nat :=
  if shouldExclude cfg relPath then (repo, 0)
  else if shouldEncrypt cfg relPath then
    (if dryRun then repo else fsWrite repo (relPath ++ ageSuffix) (enc content), 1)
  else
    (if dryRun then repo else fsWrite repo relPath content, 1)

/-- Operations issued to the git collaborator by `runPush`. -/
inductive VcsOp where
  | addAll
  | commit (msg : Str)
  | gitPush
deriving DecidableEq

/-- Outcome of `runPush`: the repository working copy, the VCS operations
issued, and the processed-file count that is printed. -/
structure PushOutcome where
  repo : FS
  vcs : List VcsOp
  count : Nat
deriving DecidableEq

/-- Go `GenerateManifest` (paths.go) over the filesystem model: one entry per
file, skipping paths with the `.git` prefix and the manifest itself. -/
def generateManifest (hash : Str → Str) (repo : FS) : List ManifestEntry :=
  repo.filterMap (fun pc =>
    if (str ".git").isPrefixOf pc.1 ∨ pc.1 = str ".sync-manifest" then none
    else some ⟨hash pc.2, pc.1⟩)

/-- Go `runPush` (push.go): precondition checks for the key file and the
local config directory; walk of the local files applying `pushFileStep`;
unconditional encryption of the extra top-level config file to
`claude.json.age`; early return in dry-run mode; otherwise manifest
regeneration and the git add/commit/push sequence (`hasChanges` and
`hasRemote` are the collaborator's answers). -/
def runPush (enc hash : Str → Str) (ts : Str) (hasChanges hasRemote : Bool)
    (keyExists claudeDirExists dryRun : Bool) (cfg : Config)
    (localFiles : List (Str × Str)) (claudeJSON : Option Str) (repo : FS) :
    Except Unit PushOutcome :=
  if ¬ keyExists then .error ()
  else if ¬ claudeDirExists then .error ()
  else
    let walked := localFiles.foldl (fun acc f =>
      let r := pushFileStep enc cfg dryRun acc.1 f.1 f.2
      (r.1, acc.2 + r.2)) (repo, 0)
    let afterJSON :=
      match claudeJSON with
      | some cj =>
        (if dryRun then walked.1 else fsWrite walked.1 (str "claude.json.age") (enc cj),
         walked.2 + 1)
      | none => walked
    if dryRun then .ok ⟨afterJSON.1, [], afterJSON.2⟩
    else
      let entries := generateManifest hash afterJSON.1
      let repo2 := fsWrite afterJSON.1 (str ".sync-manifest") (writeManifest ts entries)
      let vcs := [VcsOp.addAll] ++
        (if hasChanges then
          [VcsOp.commit (str "Sync " ++ ts)] ++ (if hasRemote then [VcsOp.gitPush] else [])
         else [])
      .ok ⟨repo2, vcs, afterJSON.2⟩

theorem pushFold_dryRun (enc : Str → Str) (cfg : Config) (files : List (Str × Str)) :
    ∀ (fs : FS) (n : Nat),
      files.foldl (fun acc f =>
        let r := pushFileStep enc cfg true acc.1 f.1 f.2
        (r.1, acc.2 + r.2)) (fs, n) =
      (fs, n + (files.filter (fun f => !(shouldExclude cfg f.1))).length) := by
  induction files with
  | nil => intro fs n; simp
  | cons f t ih =>
    intro fs n
    rw [List.foldl_cons]
    by_cases he : shouldExclude cfg f.1 = true
    · have hstep : pushFileStep enc cfg true fs f.1 f.2 = (fs, 0) := by
        simp [pushFileStep, he]
      rw [hstep]
      simp only [Nat.add_zero]
      rw [ih fs n, List.filter_cons]
      simp [he]
    · have he' : shouldExclude cfg f.1 = false := Bool.of_not_eq_true he
      have hstep : pushFileStep enc cfg true fs f.1 f.2 = (fs, 1) := by
        by_cases hen : shouldEncrypt cfg f.1 = true <;> simp [pushFileStep, he', hen]
      rw [hstep]
      rw [ih fs (n + 1), List.filter_cons]
      simp [he']
      omega

/-- C5: in dry-run mode (with the key file and the local config directory
present) push performs no filesystem mutation — the repository working copy
is returned unchanged and no manifest is written — and no VCS operation is
issued; only the processed-file count (non-excluded files, plus one for the
extra top-level config file when present) is reported. -/
theorem C5_push_dry_run_no_mutation :
    ∀ (enc hash : Str → Str) (ts : Str) (hasChanges hasRemote : Bool) (cfg : Config)
      (localFiles : List (Str × Str)) (claudeJSON : Option Str) (repo : FS),
      runPush enc hash ts hasChanges hasRemote true true true cfg localFiles claudeJSON repo =
        .ok ⟨repo, [],
          (localFiles.filter (fun f => !(shouldExclude cfg f.1))).length +
            (match claudeJSON with | some _ => 1 | none => 0)⟩ := by
  intro enc hash ts hasChanges hasRemote cfg localFiles claudeJSON repo
  rw [runPush]
  simp only [not_true, if_neg, ite_false, if_false]
  rw [pushFold_dryRun]
  match claudeJSON with
  | some cj => simp
  | none => simp

/-- C6: a path matching both an encrypt and an exclude pattern is classified
as excluded by push — the loop body leaves the repository untouched and does
not count the file, never reaching the encrypt/copy step; and on pull the
exclusion check is applied to the logical path with the `.age` suffix
stripped, so an excluded encrypted repository file is skipped as well. -/
theorem C6_exclusion_precedes_encryption :
    (∀ (enc : Str → Str) (cfg : Config) (dryRun : Bool) (repo : FS) (relPath content : Str),
      shouldEncrypt cfg relPath = true → shouldExclude cfg relPath = true →
      pushFileStep enc cfg dryRun repo relPath content = (repo, 0)) ∧
    (∀ (decrypt hash : Str → Str) (ts : Str) (current : Platform) (cfg : Config)
      (strategy : Strategy) (dryRun : Bool) (fs : FS) (relPath content : Str),
      shouldExclude cfg (trimSuffix relPath ageSuffix) = true →
      pullFileStep decrypt hash ts current cfg strategy dryRun fs relPath content =
        ⟨fs, false, false⟩) := by
  constructor
  · intro enc cfg dryRun repo relPath content _ hexcl
    simp [pushFileStep, hexcl]
  · intro decrypt hash ts current cfg strategy dryRun fs relPath content hexcl
    rw [pullFileStep]
    split
    · rfl
    · simp only [hexcl, if_true]

/-- Witness for C6 with the pattern `settings.json` both in the encrypt and
the exclude collections: push skips `settings.json`, and pull skips the
encrypted repository file `settings.json.age`. -/
theorem C6_exclusion_precedes_encryption_witness :
    pushFileStep id ⟨[str "settings.json"], [str "settings.json"], 5⟩ false []
        (str "settings.json") (str "x") = ([], 0) ∧
    pullFileStep id id (str "T") Platform.unix
        ⟨[str "settings.json"], [str "settings.json"], 5⟩ Strategy.theirs false []
        (str "settings.json.age") (str "y") = ⟨[], false, false⟩ := by
  constructor
  · exact C6_exclusion_precedes_encryption.1 id _ false [] _ (str "x")
      (by decide) (by decide)
  · exact C6_exclusion_precedes_encryption.2 id id (str "T") Platform.unix _
      Strategy.theirs false [] _ (str "y") (by decide)

theorem pullEnc_theirs_some (decrypt hash : Str → Str) (ts : Str) (current : Platform)
    (cfg : Config) (fs : FS) (relPath content d : Str)
    (hskip : ¬ ((str ".git").isPrefixOf relPath = true ∨ relPath = str ".sync-manifest" ∨
      relPath = str "README.md"))
    (hexcl : shouldExclude cfg (trimSuffix relPath ageSuffix) = false)
    (hplat : shouldSkipForPlatform current (trimSuffix relPath ageSuffix) = false)
    (hage : ageSuffix.isSuffixOf relPath = true)
    (hget : fsGet fs (encDest relPath) = some d) :
    pullFileStep decrypt hash ts current cfg .theirs false fs relPath content =
      ⟨fsWrite (fsWrite fs (backupName (encDest relPath) ts) d) (encDest relPath)
        (decrypt content), true, true⟩ := by
  rw [pullFileStep, if_neg hskip]
  simp only [hexcl, Bool.false_eq_true, if_false, hplat, hage, if_true]
  simp [hget]

theorem pullEnc_theirs_none (decrypt hash : Str → Str) (ts : Str) (current : Platform)
    (cfg : Config) (fs : FS) (relPath content : Str)
    (hskip : ¬ ((str ".git").isPrefixOf relPath = true ∨ relPath = str ".sync-manifest" ∨
      relPath = str "README.md"))
    (hexcl : shouldExclude cfg (trimSuffix relPath ageSuffix) = false)
    (hplat : shouldSkipForPlatform current (trimSuffix relPath ageSuffix) = false)
    (hage : ageSuffix.isSuffixOf relPath = true)
    (hget : fsGet fs (encDest relPath) = none) :
    pullFileStep decrypt hash ts current cfg .theirs false fs relPath content =
      ⟨fsWrite fs (encDest relPath) (decrypt content), true, false⟩ := by
  rw [pullFileStep, if_neg hskip]
  simp only [hexcl, Bool.false_eq_true, if_false, hplat, hage, if_true]
  simp [hget, fsExists]

theorem pullPlain_theirs_none (decrypt hash : Str → Str) (ts : Str) (current : Platform)
    (cfg : Config) (fs : FS) (relPath content : Str)
    (hskip : ¬ ((str ".git").isPrefixOf relPath = true ∨ relPath = str ".sync-manifest" ∨
      relPath = str "README.md"))
    (hexcl : shouldExclude cfg (trimSuffix relPath ageSuffix) = false)
    (hplat : shouldSkipForPlatform current (trimSuffix relPath ageSuffix) = false)
    (hage : ageSuffix.isSuffixOf relPath = false)
    (hget : fsGet fs (joinClaude relPath) = none) :
    pullFileStep decrypt hash ts current cfg .theirs false fs relPath content =
      ⟨fsWrite fs (joinClaude relPath) content, true, false⟩ := by
  rw [pullFileStep, if_neg hskip]
  simp only [hexcl, Bool.false_eq_true, if_false, hplat, hage, if_true]
  simp [hget]

theorem pullPlain_theirs_some (decrypt hash : Str → Str) (ts : Str) (current : Platform)
    (cfg : Config) (fs : FS) (relPath content d : Str)
    (hskip : ¬ ((str ".git").isPrefixOf relPath = true ∨ relPath = str ".sync-manifest" ∨
      relPath = str "README.md"))
    (hexcl : shouldExclude cfg (trimSuffix relPath ageSuffix) = false)
    (hplat : shouldSkipForPlatform current (trimSuffix relPath ageSuffix) = false)
    (hage : ageSuffix.isSuffixOf relPath = false)
    (hget : fsGet fs (joinClaude relPath) = some d) :
    pullFileStep decrypt hash ts current cfg .theirs false fs relPath content =
      (if hash content ≠ hash d then
        ⟨fsWrite (fsWrite fs (backupName (joinClaude relPath) ts) d)
          (joinClaude relPath) content, true, true⟩
       else ⟨fs, true, false⟩) := by
  rw [pullFileStep, if_neg hskip]
  simp only [hexcl, Bool.false_eq_true, if_false, hplat, hage, if_true]
  simp only [hget]
  by_cases hdif : hash content ≠ hash d
  · simp [hdif]
  · simp [hdif]

/-- C3 counterexample: an encrypted repository file whose decrypted content
(`decrypt = id` here) is identical to the existing destination content still
causes a backup to be created under the default Theirs strategy — the code
performs no decrypted-content comparison for encrypted files. -/
theorem C3_pull_theirs_backup_counterexample :
    (pullFileStep id id (str "T") Platform.unix ⟨[], [], 5⟩ Strategy.theirs false
        [(joinClaude (str "settings.json"), str "x")]
        (str "settings.json.age") (str "x")).backedUp = true ∧
    id (str "x") = str "x" := by
  constructor
  · decide
  · rfl

/-- C3 (amended): during a pull under the default Theirs strategy (not dry
run), every processed (non-skipped) file ends with the destination holding
the remote content — digest-equal content for plain files, the decrypted
content for encrypted files — and a `.local-backup-<timestamp>` copy of the
old destination content is created exactly when the destination exists and,
for plain files only, its digest differs from the incoming digest; for
encrypted files the backup is created whenever the destination exists,
without any content comparison. -/
theorem C3_pull_theirs_backup_and_overwrite :
    ∀ (decrypt hash : Str → Str) (ts : Str) (current : Platform) (cfg : Config)
      (fs : FS) (relPath content : Str),
      ¬ ((str ".git").isPrefixOf relPath = true ∨ relPath = str ".sync-manifest" ∨
          relPath = str "README.md") →
      shouldExclude cfg (trimSuffix relPath ageSuffix) = false →
      shouldSkipForPlatform current (trimSuffix relPath ageSuffix) = false →
      (ageSuffix.isSuffixOf relPath = true →
        ((pullFileStep decrypt hash ts current cfg .theirs false fs relPath content).counted
            = true ∧
         ((pullFileStep decrypt hash ts current cfg .theirs false fs relPath content).backedUp
            = true ↔ fsExists fs (encDest relPath) = true) ∧
         fsGet (pullFileStep decrypt hash ts current cfg .theirs false fs relPath content).fs
            (encDest relPath) = some (decrypt content) ∧
         (∀ d, fsGet fs (encDest relPath) = some d →
           fsGet (pullFileStep decrypt hash ts current cfg .theirs false fs relPath content).fs
             (backupName (encDest relPath) ts) = some d))) ∧
      (ageSuffix.isSuffixOf relPath = false →
        ((pullFileStep decrypt hash ts current cfg .theirs false fs relPath content).counted
            = true ∧
         ((pullFileStep decrypt hash ts current cfg .theirs false fs relPath content).backedUp
            = true ↔
           ∃ d, fsGet fs (joinClaude relPath) = some d ∧ hash content ≠ hash d) ∧
         (∃ c2, fsGet (pullFileStep decrypt hash ts current cfg .theirs false fs relPath
             content).fs (joinClaude relPath) = some c2 ∧ hash c2 = hash content) ∧
         (∀ d, fsGet fs (joinClaude relPath) = some d → hash content ≠ hash d →
           fsGet (pullFileStep decrypt hash ts current cfg .theirs false fs relPath content).fs
             (backupName (joinClaude relPath) ts) = some d))) := by
  intro decrypt hash ts current cfg fs relPath content hskip hexcl hplat
  constructor
  · intro hage
    rcases hget : fsGet fs (encDest relPath) with - | d
    · rw [pullEnc_theirs_none decrypt hash ts current cfg fs relPath content
        hskip hexcl hplat hage hget]
      refine ⟨rfl, by simp [fsExists, hget], fsGet_fsWrite_same _ _ _, ?_⟩
      intro d2 hd2
      exact absurd hd2 (by simp)
    · rw [pullEnc_theirs_some decrypt hash ts current cfg fs relPath content d
        hskip hexcl hplat hage hget]
      refine ⟨rfl, by simp [fsExists, hget], fsGet_fsWrite_same _ _ _, ?_⟩
      intro d2 hd2
      injection hd2 with hd2
      subst hd2
      rw [fsGet_fsWrite_other _ _ _ _ (backupName_ne_dest _ _)]
      exact fsGet_fsWrite_same _ _ _
  · intro hage
    rcases hget : fsGet fs (joinClaude relPath) with - | d
    · rw [pullPlain_theirs_none decrypt hash ts current cfg fs relPath content
        hskip hexcl hplat hage hget]
      refine ⟨rfl, ?_, ⟨content, fsGet_fsWrite_same _ _ _, rfl⟩, ?_⟩
      · constructor
        · intro h; exact absurd h (by simp)
        · rintro ⟨d, hd, -⟩
          exact absurd hd (by simp)
      · intro d hd
        exact absurd hd (by simp)
    · rw [pullPlain_theirs_some decrypt hash ts current cfg fs relPath content d
        hskip hexcl hplat hage hget]
      by_cases hdif : hash content ≠ hash d
      · rw [if_pos hdif]
        refine ⟨rfl, ?_, ⟨content, fsGet_fsWrite_same _ _ _, rfl⟩, ?_⟩
        · simp only [true_iff]
          exact ⟨d, rfl, hdif⟩
        · intro d2 hd2 hne2
          injection hd2 with hd2
          subst hd2
          rw [fsGet_fsWrite_other _ _ _ _ (backupName_ne_dest _ _)]
          exact fsGet_fsWrite_same _ _ _
      · rw [if_neg hdif]
        push_neg at hdif
        refine ⟨rfl, ?_, ⟨d, hget, hdif.symm⟩, ?_⟩
        · constructor
          · intro h; exact absurd h (by simp)
          · rintro ⟨d2, hd2, hne⟩
            injection hd2 with hd2
            subst hd2
            exact absurd hdif hne
        · intro d2 hd2 hne
          injection hd2 with hd2
          subst hd2
          exact absurd hdif hne

/-- Witness for C3 at concrete inputs: a plain repository file over an
existing differing destination is counted, and the backup equivalence holds
there with the destination present and differing. -/
theorem C3_pull_theirs_backup_and_overwrite_witness :
    ((pullFileStep id id (str "T") Platform.unix ⟨[], [], 5⟩ .theirs false
        [(joinClaude (str "CLAUDE.md"), str "old")] (str "CLAUDE.md") (str "new")).counted
        = true) ∧
    ((pullFileStep id id (str "T") Platform.unix ⟨[], [], 5⟩ .theirs false
        [(joinClaude (str "CLAUDE.md"), str "old")] (str "CLAUDE.md") (str "new")).backedUp
        = true ↔
      ∃ d, fsGet [(joinClaude (str "CLAUDE.md"), str "old")] (joinClaude (str "CLAUDE.md"))
          = some d ∧ id (str "new") ≠ id d) := by
  have h := (C3_pull_theirs_backup_and_overwrite id id (str "T") Platform.unix ⟨[], [], 5⟩
    [(joinClaude (str "CLAUDE.md"), str "old")] (str "CLAUDE.md") (str "new")
    (by decide) (by decide) (by decide)).2 (by decide)
  exact ⟨h.1, h.2.1⟩

/-- The portable placeholder token `$CLAUDE_DIR` (`ClaudeDirPlaceholder` in
paths.go). -/
def claudeDirPlaceholder : Str := str "$CLAUDE_DIR"

/-- Worker of Go `strings.ReplaceAll` for a non-empty pattern: replace the
leftmost non-overlapping occurrences of `pat` by `rep`, scanning left to
right. -/
def replaceAllAux (pat rep : Str) : Str → Str
  | [] => []
  | c :: t =>
    if pat.isPrefixOf (c :: t) then rep ++ replaceAllAux pat rep (t.drop (pat.length - 1))
    else c :: replaceAllAux pat rep t
termination_by s => s.length
decreasing_by
  · have hd : (t.drop (pat.length - 1)).length ≤ t.length := by
      rw [List.length_drop]
      omega
    simp
    omega
  · simp

/-- Go `strings.ReplaceAll`: with an empty pattern Go inserts `rep` before
every character and at the end; otherwise leftmost non-overlapping
replacement. -/
def replaceAll (s pat rep : Str) : Str :=
  if pat = [] then rep ++ s.flatMap (fun c => c :: rep)
  else replaceAllAux pat rep s

theorem replaceAllAux_nil (pat rep : Str) : replaceAllAux pat rep [] = [] := by
  rw [replaceAllAux]

theorem replaceAllAux_pos (pat rep r : Str) (hp : pat ≠ []) :
    replaceAllAux pat rep (pat ++ r) = rep ++ replaceAllAux pat rep r := by
  match pat, hp with
  | p0 :: pt, _ =>
    rw [List.cons_append, replaceAllAux]
    have hpre : (p0 :: pt).isPrefixOf (p0 :: (pt ++ r)) = true := by
      rw [List.isPrefixOf_iff_prefix, ← List.cons_append]
      exact List.prefix_append _ _
    rw [if_pos hpre]
    congr 1
    have hlen : (p0 :: pt).length - 1 = pt.length := by simp
    rw [hlen, List.drop_left]

theorem replaceAllAux_neg (pat rep : Str) (c : Char) (t : Str)
    (h : ¬ pat <+: (c :: t)) :
    replaceAllAux pat rep (c :: t) = c :: replaceAllAux pat rep t := by
  rw [replaceAllAux]
  rw [if_neg (by rw [List.isPrefixOf_iff_prefix]; exact h)]

theorem replaceAllAux_no_occur (pat rep s : Str) (h : ¬ pat <:+: s) :
    replaceAllAux pat rep s = s := by
  induction s with
  | nil => exact replaceAllAux_nil pat rep
  | cons c t ih =>
    have hnp : ¬ pat <+: (c :: t) := fun hp => h (hp.isInfix)
    rw [replaceAllAux_neg _ _ _ _ hnp]
    rw [ih (fun hi => h (List.infix_cons hi))]

theorem interc_cons_of_ne_nil (sep a : Str) (rest : List Str) (h : rest ≠ []) :
    interc sep (a :: rest) = a ++ sep ++ interc sep rest := by
  match rest, h with
  | r :: rs, _ => rfl

theorem head_prefix_interc (sep seg0 : Str) (rest : List Str) :
    seg0 <+: interc sep (seg0 :: rest) := by
  match rest with
  | [] => exact List.prefix_refl _
  | r :: rs =>
    rw [interc_cons_of_ne_nil _ _ _ (by simp), List.append_assoc]
    exact List.prefix_append _ _

theorem interc_infix_of_mem (sep : Str) (segs : List Str) (seg : Str) (h : seg ∈ segs) :
    seg <:+: interc sep segs := by
  induction segs with
  | nil => exact absurd h (by simp)
  | cons a rest ih =>
    rcases List.mem_cons.mp h with rfl | hm
    · exact (head_prefix_interc sep seg rest).isInfix
    · match rest with
      | [] => exact absurd hm (by simp)
      | r :: rs =>
        have hrec := ih hm
        obtain ⟨s, t, hst⟩ := hrec
        rw [interc_cons_of_ne_nil _ _ _ (by simp), ← hst]
        exact ⟨a ++ sep ++ s, t, by simp⟩

theorem interc_cons_head_cons (sep : Str) (c : Char) (seg0 : Str) (rest : List Str) :
    interc sep ((c :: seg0) :: rest) = c :: interc sep (seg0 :: rest) := by
  match rest with
  | [] => rfl
  | r :: rs =>
    rw [interc_cons_of_ne_nil sep (c :: seg0) (r :: rs) (by simp),
      interc_cons_of_ne_nil sep seg0 (r :: rs) (by simp)]
    simp

theorem replaceAllAux_decomp (pat rep : Str) (hpat : pat ≠ []) :
    ∀ (n : Nat) (s : Str), s.length ≤ n →
      ∃ segs : List Str, segs ≠ [] ∧
        s = interc pat segs ∧
        replaceAllAux pat rep s = interc rep segs ∧
        (∀ seg ∈ segs, ¬ pat <:+: seg) := by
  intro n
  induction n with
  | zero =>
    intro s hs
    have : s = [] := List.length_eq_zero.mp (by omega)
    subst this
    refine ⟨[[]], by simp, rfl, ?_, ?_⟩
    · rw [replaceAllAux_nil]; rfl
    · intro seg hseg
      simp only [List.mem_singleton] at hseg
      subst hseg
      intro hinf
      exact hpat (List.eq_nil_of_infix_nil hinf)
  | succ n ih =>
    intro s hs
    by_cases hpre : pat <+: s
    · obtain ⟨r, rfl⟩ := hpre
      have hr : r.length ≤ n := by
        have : 1 ≤ pat.length := List.length_pos.mpr hpat
        have := List.length_append pat r
        omega
      obtain ⟨segs, hne, h1, h2, hfree⟩ := ih r hr
      refine ⟨[] :: segs, by simp, ?_, ?_, ?_⟩
      · rw [interc_cons_of_ne_nil _ _ _ hne, List.nil_append, ← h1]
      · rw [replaceAllAux_pos _ _ _ hpat, interc_cons_of_ne_nil _ _ _ hne,
          List.nil_append, h2]
      · intro seg hseg
        rcases List.mem_cons.mp hseg with rfl | hm
        · intro hinf
          exact hpat (List.eq_nil_of_infix_nil hinf)
        · exact hfree seg hm
    · match s with
      | [] =>
        refine ⟨[[]], by simp, rfl, ?_, ?_⟩
        · rw [replaceAllAux_nil]; rfl
        · intro seg hseg
          simp only [List.mem_singleton] at hseg
          subst hseg
          intro hinf
          exact hpat (List.eq_nil_of_infix_nil hinf)
      | c :: t =>
        obtain ⟨segs, hne, h1, h2, hfree⟩ := ih t (by simp at hs; omega)
        match segs, hne with
        | seg0 :: rest, _ =>
          refine ⟨(c :: seg0) :: rest, by simp, ?_, ?_, ?_⟩
          · rw [interc_cons_head_cons, ← h1]
          · rw [replaceAllAux_neg _ _ _ _ hpre, h2, interc_cons_head_cons]
          · intro seg hseg
            rcases List.mem_cons.mp hseg with rfl | hm
            · intro hinf
              rcases List.infix_cons_iff.mp hinf with hp | hin
              · have hs0 : seg0 <+: t := by
                  rw [h1]
                  exact head_prefix_interc pat seg0 rest
                have : pat <+: (c :: t) := hp.trans (List.cons_prefix_cons.mpr ⟨rfl, hs0⟩)
                exact hpre this
              · exact hfree seg0 (by simp) hin
            · exact hfree seg (List.mem_cons_of_mem _ hm)

theorem take_isPrefix (n : Nat) (l : Str) : l.take n <+: l := List.take_prefix n l

theorem drop_isSuffix (n : Nat) (l : Str) : l.drop n <:+ l := List.drop_suffix n l

theorem prefix_append_split {A u v : Str} (h : A <+: u ++ v) :
    A <+: u ∨ (u <+: A ∧ A.drop u.length <+: v) := by
  obtain ⟨w, hw⟩ := h
  rcases List.append_eq_append_iff.mp hw with ⟨a', ha1, ha2⟩ | ⟨c', hc1, hc2⟩
  · exact Or.inl ⟨a', ha1.symm⟩
  · right
    refine ⟨⟨c', hc1.symm⟩, ?_⟩
    rw [hc1, List.drop_left]
    exact ⟨w, hc2.symm⟩

theorem infix_append_split {A : Str} (hA : A ≠ []) :
    ∀ (u v : Str), A <:+: u ++ v →
      A <:+: u ∨ A <:+: v ∨
      ∃ k, 0 < k ∧ k < A.length ∧ A.take k <:+ u ∧ A.drop k <+: v := by
  intro u
  induction u with
  | nil =>
    intro v h
    exact Or.inr (Or.inl (by simpa using h))
  | cons c u' ih =>
    intro v h
    rw [List.cons_append] at h
    rcases List.infix_cons_iff.mp h with hp | hin
    · rw [← List.cons_append] at hp
      rcases prefix_append_split hp with h1 | ⟨h1, h2⟩
      · exact Or.inl h1.isInfix
      · by_cases hlen : A.length ≤ (c :: u').length
        · have heq : c :: u' = A := h1.eq_of_length (le_antisymm h1.length_le hlen)
          exact Or.inl (heq ▸ List.infix_refl A)
        · push_neg at hlen
          refine Or.inr (Or.inr ⟨(c :: u').length, by simp, hlen, ?_, h2⟩)
          have htake : A.take (c :: u').length = c :: u' :=
            (List.prefix_iff_eq_take.mp h1).symm
          rw [htake]
    · rcases ih v hin with h1 | h1 | ⟨k, hk0, hkA, hsuf, hpre⟩
      · exact Or.inl (List.infix_cons h1)
      · exact Or.inr (Or.inl h1)
      · exact Or.inr (Or.inr ⟨k, hk0, hkA, hsuf.trans (List.suffix_cons c u'), hpre⟩)

/-- Token with no nonempty proper border: no nonempty proper prefix of `B`
is also a suffix of `B` (index form, decidable on concrete tokens). -/
def Unbordered (B : Str) : Prop :=
  ∀ k, k < B.length → 0 < k → B.take k ≠ B.drop (B.length - k)

theorem Unbordered.no_border {B y : Str} (hub : Unbordered B) (hy : y ≠ [])
    (hyB : y ≠ B) (hp : y <+: B) (hs : y <:+ B) : False := by
  have hk0 : 0 < y.length := List.length_pos.mpr hy
  have hkle : y.length ≤ B.length := hp.length_le
  have hklt : y.length < B.length :=
    lt_of_le_of_ne hkle (fun he => hyB (hp.eq_of_length he))
  have h1 : y = B.take y.length := List.prefix_iff_eq_take.mp hp
  have h2 : y = B.drop (B.length - y.length) := List.suffix_iff_eq_drop.mp hs
  exact hub y.length hklt hk0 (h1.symm.trans h2)

/-- Tokens that cannot overlap: neither occurs inside the other and no
nonempty suffix of one is a prefix of the other (index form, decidable on
concrete tokens). -/
def NoOverlap (A B : Str) : Prop :=
  (¬ A <:+: B) ∧ (¬ B <:+: A) ∧
  (∀ k, k < A.length + 1 → k < B.length + 1 → 0 < k →
    A.drop (A.length - k) ≠ B.take k) ∧
  (∀ k, k < B.length + 1 → k < A.length + 1 → 0 < k →
    B.drop (B.length - k) ≠ A.take k)

theorem NoOverlap.no_suffix_prefix_left {A B y : Str} (h : NoOverlap A B) (hy : y ≠ [])
    (hsA : y <:+ A) (hpB : y <+: B) : False := by
  have hk0 : 0 < y.length := List.length_pos.mpr hy
  have h1 : y = A.drop (A.length - y.length) := List.suffix_iff_eq_drop.mp hsA
  have h2 : y = B.take y.length := List.prefix_iff_eq_take.mp hpB
  exact h.2.2.1 y.length (by have := hsA.length_le; omega) (by have := hpB.length_le; omega)
    hk0 (h1.symm.trans h2)

theorem NoOverlap.no_suffix_prefix_right {A B y : Str} (h : NoOverlap A B) (hy : y ≠ [])
    (hsB : y <:+ B) (hpA : y <+: A) : False := by
  have hk0 : 0 < y.length := List.length_pos.mpr hy
  have h1 : y = B.drop (B.length - y.length) := List.suffix_iff_eq_drop.mp hsB
  have h2 : y = A.take y.length := List.prefix_iff_eq_take.mp hpA
  exact h.2.2.2 y.length (by have := hsB.length_le; omega) (by have := hpA.length_le; omega)
    hk0 (h1.symm.trans h2)

theorem no_occur_interc {A B : Str} (hA : A ≠ []) (hno : NoOverlap A B)
    (segs : List Str) (hfree : ∀ seg ∈ segs, ¬ A <:+: seg) :
    ¬ A <:+: interc B segs := by
  induction segs with
  | nil =>
    intro h
    exact hA (List.eq_nil_of_infix_nil (by simpa [interc] using h))
  | cons seg rest ih =>
    match rest with
    | [] => exact hfree seg (by simp)
    | r2 :: rs =>
      intro h
      rw [interc_cons_of_ne_nil _ _ _ (by simp), List.append_assoc] at h
      rcases infix_append_split hA seg _ h with h1 | h1 | ⟨k, hk0, hkA, hsuf, hpre⟩
      · exact hfree seg (by simp) h1
      · rcases infix_append_split hA B _ h1 with h2 | h2 | ⟨k, hk0, hkA, hsuf, hpre⟩
        · exact hno.1 h2
        · exact ih (fun s hs => hfree s (List.mem_cons_of_mem _ hs)) h2
        · refine hno.no_suffix_prefix_right (y := A.take k) ?_ hsuf (take_isPrefix k A)
          intro he
          have hlen := congrArg List.length he
          simp only [List.length_take, List.length_nil] at hlen
          omega
      · have hyne : A.drop k ≠ [] := by
          intro he
          have := congrArg List.length he
          simp [List.length_drop] at this
          omega
        rcases prefix_append_split hpre with h2 | ⟨h2, h3⟩
        · exact hno.no_suffix_prefix_left hyne (drop_isSuffix k A) h2
        · exact hno.2.1 (List.infix_iff_prefix_suffix.mpr ⟨A.drop k, h2, drop_isSuffix k A⟩)

theorem unbordered_no_prefix_cons {B : Str} (hB : B ≠ []) (hub : Unbordered B)
    (c : Char) (u X : Str) (hfree : ¬ B <:+: (c :: u)) :
    ¬ B <+: (c :: (u ++ (B ++ X))) := by
  intro hp
  rw [← List.cons_append] at hp
  rcases prefix_append_split hp with h1 | ⟨h1, h2⟩
  · exact hfree h1.isInfix
  · by_cases hyn : B.drop (c :: u).length = []
    · have hlen : B.length ≤ (c :: u).length := by
        have := congrArg List.length hyn
        simp only [List.length_drop, List.length_nil] at this
        omega
      have heq : c :: u = B := h1.eq_of_length (le_antisymm h1.length_le hlen)
      exact hfree (heq ▸ List.infix_refl B)
    · rcases prefix_append_split h2 with h3 | ⟨h3, h4⟩
      · have hyB : B.drop (c :: u).length ≠ B := by
          intro he
          have := congrArg List.length he
          simp only [List.length_drop] at this
          have hBpos : 0 < B.length := List.length_pos.mpr hB
          have : B.length - (c :: u).length < B.length := by
            simp only [List.length_cons]
            omega
          omega
        exact hub.no_border hyn hyB h3 (drop_isSuffix _ _)
      · have hle := h3.length_le
        have hylen : (B.drop (c :: u).length).length = B.length - (c :: u).length := by
          simp [List.length_drop]
        have hupos : 0 < (c :: u).length := by simp
        have hBpos : 0 < B.length := List.length_pos.mpr hB
        omega

theorem replaceAllAux_seg_step (B C : Str) (hB : B ≠ []) (hub : Unbordered B)
    (seg X : Str) (hfree : ¬ B <:+: seg) :
    replaceAllAux B C (seg ++ B ++ X) = seg ++ C ++ replaceAllAux B C X := by
  induction seg with
  | nil =>
    simp only [List.nil_append]
    exact replaceAllAux_pos B C X hB
  | cons c u ih =>
    have hfreeu : ¬ B <:+: u := fun hi => hfree (List.infix_cons hi)
    have hnp : ¬ B <+: (c :: (u ++ (B ++ X))) :=
      unbordered_no_prefix_cons hB hub c u X hfree
    have hshape : (c :: u) ++ B ++ X = c :: (u ++ (B ++ X)) := by simp
    rw [hshape, replaceAllAux_neg _ _ _ _ hnp]
    have hshape2 : u ++ (B ++ X) = u ++ B ++ X := by simp
    rw [hshape2, ih hfreeu]
    simp

theorem replaceAllAux_interc (B C : Str) (hB : B ≠ []) (hub : Unbordered B)
    (segs : List Str) (hne : segs ≠ []) (hfree : ∀ seg ∈ segs, ¬ B <:+: seg) :
    replaceAllAux B C (interc B segs) = interc C segs := by
  induction segs with
  | nil => exact absurd rfl hne
  | cons seg rest ih =>
    match rest with
    | [] => exact replaceAllAux_no_occur B C seg (hfree seg (by simp))
    | r2 :: rs =>
      rw [interc_cons_of_ne_nil B seg (r2 :: rs) (by simp),
        interc_cons_of_ne_nil C seg (r2 :: rs) (by simp)]
      rw [replaceAllAux_seg_step B C hB hub seg _ (hfree seg (by simp))]
      rw [ih (by simp) (fun s hs => hfree s (List.mem_cons_of_mem _ hs))]

theorem splitOnChar_ne_nil (sep : Char) : ∀ s : Str, splitOnChar sep s ≠ []
  | [] => by simp [splitOnChar]
  | c :: t => by
    simp only [splitOnChar]
    split
    · simp
    · split <;> simp

theorem interc_splitOnChar (sep : Char) (s : Str) :
    interc [sep] (splitOnChar sep s) = s := by
  induction s with
  | nil => rfl
  | cons c t ih =>
    by_cases hc : c = sep
    · subst hc
      rw [show splitOnChar c (c :: t) = [] :: splitOnChar c t from by
        simp [splitOnChar]]
      rw [interc_cons_of_ne_nil _ _ _ (splitOnChar_ne_nil c t), List.nil_append,
        List.cons_append, List.nil_append, ih]
    · match hsplit : splitOnChar sep t with
      | [] => exact absurd hsplit (splitOnChar_ne_nil sep t)
      | h0 :: r =>
        rw [show splitOnChar sep (c :: t) = (c :: h0) :: r from by
          simp [splitOnChar, hc, hsplit]]
        rw [interc_cons_head_cons, ← hsplit, ih]

theorem splitOnChar_of_not_mem (sep : Char) (s : Str) (h : sep ∉ s) :
    splitOnChar sep s = [s] := by
  induction s with
  | nil => rfl
  | cons c t ih =>
    have hc : ¬ c = sep := fun he => h (by simp [he])
    have ht : sep ∉ t := fun hm => h (by simp [hm])
    simp only [splitOnChar, if_neg hc, ih ht]

theorem map_id_of_mem {α : Type} (l : List α) (f : α → α) (h : ∀ x ∈ l, f x = x) :
    l.map f = l := by
  induction l with
  | nil => rfl
  | cons a t ih =>
    rw [List.map_cons, h a (by simp), ih (fun x hx => h x (List.mem_cons_of_mem _ hx))]

theorem singleton_infix_iff (c : Char) (s : Str) : [c] <:+: s ↔ c ∈ s := by
  induction s with
  | nil =>
    constructor
    · intro h
      have := List.eq_nil_of_infix_nil h
      simp at this
    · intro h; simp at h
  | cons a t ih =>
    rw [List.infix_cons_iff, ih, List.mem_cons]
    constructor
    · rintro (hp | hm)
      · exact Or.inl (List.cons_prefix_cons.mp hp).1
      · exact Or.inr hm
    · rintro (rfl | hm)
      · exact Or.inl (List.cons_prefix_cons.mpr ⟨rfl, List.nil_prefix⟩)
      · exact Or.inr hm

theorem not_infix_of_containsSub {s A : Str} (h : containsSub s A = false) :
    ¬ A <:+: s := by
  intro hi
  rw [← containsSub_iff] at hi
  rw [h] at hi
  exact absurd hi (by simp)

theorem replaceAll_no_occur (s pat rep : Str) (hp : pat ≠ [])
    (h : containsSub s pat = false) : replaceAll s pat rep = s := by
  rw [replaceAll, if_neg hp]
  exact replaceAllAux_no_occur _ _ _ (not_infix_of_containsSub h)

/-- Backslash-escaped form of the directory path, as computed inline in both
translator functions: `strings.ReplaceAll(claudeDir, "\\", "\\\\")`. -/
def escapeDir (claudeDir : Str) : Str := replaceAll claudeDir ['\\'] ['\\', '\\']

/-- Go `NormalizePathsInJSON` (paths.go): replace the backslash-escaped, the
forward-slash and the raw form of the config-directory path by the
placeholder token, in that order. -/
def normalizePathsInJSON (data claudeDir : Str) : Str :=
  let c1 := replaceAll data (escapeDir claudeDir) claudeDirPlaceholder
  let c2 := replaceAll c1 (toSlash claudeDir) claudeDirPlaceholder
  replaceAll c2 claudeDir claudeDirPlaceholder

/-- Go `ExpandPathsInJSON` (paths.go): on a Windows-style directory (one
containing a backslash) substitute the placeholder by the escaped directory;
otherwise substitute the raw directory and then rewrite `'\\'` to `'/'` on
every line that contains the expanded directory. -/
def expandPathsInJSON (data claudeDir : Str) : Str :=
  if claudeDir.contains '\\' then
    replaceAll data claudeDirPlaceholder (escapeDir claudeDir)
  else
    let content := replaceAll data claudeDirPlaceholder claudeDir
    let lines := splitOnChar '\n' content
    let lines2 := lines.map (fun line =>
      if containsSub line claudeDir then replaceAll line ['\\'] ['/'] else line)
    interc ['\n'] lines2

instance instDecidableUnbordered (B : Str) : Decidable (Unbordered B) := by
  unfold Unbordered
  infer_instance

instance instDecidableNoOverlap (A B : Str) : Decidable (NoOverlap A B) := by
  unfold NoOverlap
  infer_instance

theorem escapeDir_eq_self (dirA : Str) (h : dirA.contains '\\' = false) :
    escapeDir dirA = dirA := by
  rw [escapeDir, replaceAll, if_neg (by simp)]
  refine replaceAllAux_no_occur _ _ _ ?_
  rw [singleton_infix_iff]
  intro hm
  have hnot : '\\' ∉ dirA := by simpa using h
  exact hnot hm

/-- C4 counterexample: a payload that itself contains the literal placeholder
token.  The directory `/home/u/.claude` occurs nowhere in it, so normalizing
leaves the payload unchanged, but expanding then substitutes the literal
placeholder, so the round trip does not reproduce the payload's content. -/
theorem C4_placeholder_roundtrip_counterexample :
    expandPathsInJSON (normalizePathsInJSON (str "path: $CLAUDE_DIR")
        (str "/home/u/.claude")) (str "/home/u/.claude") =
      str "path: /home/u/.claude" ∧
    str "path: /home/u/.claude" ≠ str "path: $CLAUDE_DIR" := by
  constructor
  · have hd : (str "/home/u/.claude").contains '\\' = false := by decide
    have hesc : escapeDir (str "/home/u/.claude") = str "/home/u/.claude" :=
      escapeDir_eq_self _ hd
    have hnorm : normalizePathsInJSON (str "path: $CLAUDE_DIR") (str "/home/u/.claude") =
        str "path: $CLAUDE_DIR" := by
      have hid : replaceAll (str "path: $CLAUDE_DIR") (str "/home/u/.claude")
          claudeDirPlaceholder = str "path: $CLAUDE_DIR" :=
        replaceAll_no_occur _ _ _ (by decide) (by decide)
      rw [normalizePathsInJSON]
      simp only [hesc, toSlash]
      rw [hid, hid, hid]
    rw [hnorm, expandPathsInJSON, if_neg (by decide)]
    have hcontent : replaceAll (str "path: $CLAUDE_DIR") claudeDirPlaceholder
        (str "/home/u/.claude") = str "path: /home/u/.claude" := by
      rw [replaceAll, if_neg (by decide)]
      have hshape : str "path: $CLAUDE_DIR" = str "path: " ++ claudeDirPlaceholder ++ [] := by
        decide
      rw [hshape, replaceAllAux_seg_step _ _ (by decide) (by decide) _ _
        (not_infix_of_containsSub (by decide))]
      rw [replaceAllAux_nil]
      decide
    rw [hcontent]
    show interc ['\n'] ((splitOnChar '\n' (str "path: /home/u/.claude")).map
      (fun line => if containsSub line (str "/home/u/.claude") = true
        then replaceAll line ['\\'] ['/'] else line)) = str "path: /home/u/.claude"
    rw [splitOnChar_of_not_mem _ _ (by decide)]
    rw [List.map_cons, List.map_nil]
    rw [if_pos (by decide)]
    rw [replaceAll_no_occur _ _ _ (by decide) (by decide)]
    rfl
  · decide

theorem containsSub_singleton_of_not_mem {line : Str} {c : Char}
    (h : line.contains c = false) : containsSub line [c] = false := by
  by_contra hc
  simp only [Bool.not_eq_false] at hc
  have hinf := (containsSub_iff _ _).mp hc
  rw [singleton_infix_iff] at hinf
  have hnm : c ∉ line := by simpa using h
  exact hnm hinf

/-- C4 (amended): the placeholder round trip
`expand(normalize(payload, dirA), dirA) = payload` holds (i) for every
non-empty backslash-free `dirA` that does not overlap the placeholder token,
whenever the payload does not contain the placeholder token and no payload
line containing `dirA` contains a backslash; and (ii) for a Windows-style
`dirA` (one containing a backslash), whenever the payload contains the
directory only in backslash-escaped form — it splits into segments joined by
the escaped directory, the segments containing neither directory form nor
the placeholder — the escaped form is unbordered and `dirA` does not overlap
the placeholder.  Without these provisos the round trip fails, as the
counterexample shows. -/
theorem C4_placeholder_roundtrip_amended :
    (∀ (payload dirA : Str),
      dirA ≠ [] →
      dirA.contains '\\' = false →
      containsSub payload claudeDirPlaceholder = false →
      NoOverlap dirA claudeDirPlaceholder →
      (∀ line ∈ splitOnChar '\n' payload,
        containsSub line dirA = true → line.contains '\\' = false) →
      expandPathsInJSON (normalizePathsInJSON payload dirA) dirA = payload) ∧
    (∀ (dirA : Str) (segs : List Str),
      dirA ≠ [] →
      dirA.contains '\\' = true →
      escapeDir dirA ≠ [] →
      Unbordered (escapeDir dirA) →
      NoOverlap dirA claudeDirPlaceholder →
      segs ≠ [] →
      (∀ seg ∈ segs, containsSub seg (escapeDir dirA) = false ∧
        containsSub seg dirA = false ∧ containsSub seg claudeDirPlaceholder = false) →
      expandPathsInJSON (normalizePathsInJSON (interc (escapeDir dirA) segs) dirA) dirA =
        interc (escapeDir dirA) segs) := by
  have hPHne : claudeDirPlaceholder ≠ [] := by decide
  have hubPH : Unbordered claudeDirPlaceholder := by decide
  constructor
  · intro payload dirA hA hback hph hov hlines
    have hescid : escapeDir dirA = dirA := escapeDir_eq_self dirA hback
    obtain ⟨segs, hsegne, hpay, hrepl, hfree⟩ :=
      replaceAllAux_decomp dirA claudeDirPlaceholder hA payload.length payload le_rfl
    have hc1 : replaceAll payload dirA claudeDirPlaceholder =
        interc claudeDirPlaceholder segs := by
      rw [replaceAll, if_neg hA]
      exact hrepl
    have hsegPH : ∀ seg ∈ segs, ¬ claudeDirPlaceholder <:+: seg := by
      intro seg hseg hinf
      have hinfp : claudeDirPlaceholder <:+: payload := by
        rw [hpay]
        exact hinf.trans (interc_infix_of_mem dirA segs seg hseg)
      exact (not_infix_of_containsSub hph) hinfp
    have hnoc : ¬ dirA <:+: interc claudeDirPlaceholder segs :=
      no_occur_interc hA hov segs hfree
    have hc2 : replaceAll (interc claudeDirPlaceholder segs) dirA claudeDirPlaceholder =
        interc claudeDirPlaceholder segs := by
      rw [replaceAll, if_neg hA]
      exact replaceAllAux_no_occur _ _ _ hnoc
    have hnorm : normalizePathsInJSON payload dirA = interc claudeDirPlaceholder segs := by
      rw [normalizePathsInJSON]
      simp only [hescid, toSlash]
      rw [hc1, hc2, hc2]
    have hcontent : replaceAll (interc claudeDirPlaceholder segs) claudeDirPlaceholder dirA
        = payload := by
      rw [replaceAll, if_neg hPHne,
        replaceAllAux_interc _ _ hPHne hubPH segs hsegne hsegPH, hpay]
    rw [hnorm, expandPathsInJSON, if_neg (by rw [hback]; simp)]
    show interc ['\n']
      ((splitOnChar '\n' (replaceAll (interc claudeDirPlaceholder segs)
          claudeDirPlaceholder dirA)).map
        (fun line => if containsSub line dirA = true
          then replaceAll line ['\\'] ['/'] else line)) = payload
    rw [hcontent]
    rw [map_id_of_mem _ _ ?hmap, interc_splitOnChar]
    case hmap =>
      intro line hline
      by_cases hcl : containsSub line dirA = true
      · rw [if_pos hcl]
        have hnb := hlines line hline hcl
        exact replaceAll_no_occur _ _ _ (by simp) (containsSub_singleton_of_not_mem hnb)
      · rw [if_neg hcl]
  · intro dirA segs hA hback hescne hub hov hsegne hsegs
    have hsegEsc : ∀ seg ∈ segs, ¬ (escapeDir dirA) <:+: seg :=
      fun seg hs => not_infix_of_containsSub (hsegs seg hs).1
    have hc1 : replaceAll (interc (escapeDir dirA) segs) (escapeDir dirA)
        claudeDirPlaceholder = interc claudeDirPlaceholder segs := by
      rw [replaceAll, if_neg hescne]
      exact replaceAllAux_interc _ _ hescne hub segs hsegne hsegEsc
    have hsegsA : ∀ seg ∈ segs, ¬ dirA <:+: seg :=
      fun seg hs => not_infix_of_containsSub (hsegs seg hs).2.1
    have hnoc := no_occur_interc hA hov segs hsegsA
    have hc2 : replaceAll (interc claudeDirPlaceholder segs) dirA claudeDirPlaceholder =
        interc claudeDirPlaceholder segs := by
      rw [replaceAll, if_neg hA]
      exact replaceAllAux_no_occur _ _ _ hnoc
    have hnorm : normalizePathsInJSON (interc (escapeDir dirA) segs) dirA =
        interc claudeDirPlaceholder segs := by
      rw [normalizePathsInJSON]
      simp only [toSlash]
      rw [hc1, hc2, hc2]
    rw [hnorm, expandPathsInJSON, if_pos hback]
    have hsegsPH : ∀ seg ∈ segs, ¬ claudeDirPlaceholder <:+: seg :=
      fun seg hs => not_infix_of_containsSub (hsegs seg hs).2.2
    rw [replaceAll, if_neg hPHne]
    exact replaceAllAux_interc _ _ hPHne hubPH segs hsegne hsegsPH

/-- Witness for C4 (amended) at a concrete two-line payload containing one
occurrence of the directory path. -/
theorem C4_placeholder_roundtrip_amended_witness :
    expandPathsInJSON (normalizePathsInJSON
        (str "path: /home/u/.claude/x\nother: 1") (str "/home/u/.claude"))
      (str "/home/u/.claude") = str "path: /home/u/.claude/x\nother: 1" := by
  exact C4_placeholder_roundtrip_amended.1
    (str "path: /home/u/.claude/x\nother: 1") (str "/home/u/.claude")
    (by decide) (by decide) (by decide) (by decide) (by decide)

/-- Witness for C1 at a concrete input: a file nested below the `plans`
directory is excluded via the prefix disjunct. -/
theorem C1_shouldExclude_characterization_witness :
    shouldExclude ⟨[], [str "plans"], 5⟩ (str "plans/notes/a.md") = true := by
  exact (C1_shouldExclude_characterization.1 [] [str "plans"] 5
    (str "plans/notes/a.md")).mpr ⟨str "plans", by simp, by decide⟩

/-- Witness for C2 (amended) at a concrete input: `--ours` together with
`--theirs` fails validation. -/
theorem C2_pull_flag_exclusivity_witness :
    runPullArgCheck true true false false = .error () := by
  exact (C2_pull_flag_exclusivity true true false false).1.mpr (by decide)

/-- Witness for C5 at a concrete input: one excluded file, one plain file and
the extra top-level config file give a dry-run count of two and no change. -/
theorem C5_push_dry_run_no_mutation_witness :
    runPush id id (str "T") false false true true true ⟨[], [str "plans"], 5⟩
        [(str "plans/x", str "a"), (str "CLAUDE.md", str "b")] (some (str "cj")) [] =
      .ok ⟨[], [], ([((str "plans/x"), (str "a")), ((str "CLAUDE.md"), (str "b"))].filter
        (fun f => !(shouldExclude ⟨[], [str "plans"], 5⟩ f.1))).length + 1⟩ := by
  exact C5_push_dry_run_no_mutation id id (str "T") false false ⟨[], [str "plans"], 5⟩
    [(str "plans/x", str "a"), (str "CLAUDE.md", str "b")] (some (str "cj")) []

/-- Witness for C8 at a concrete input: a two-entry manifest yields exactly
two reports. -/
theorem C8_verify_reports_and_outcome_witness :
    (runVerify id [(str "a", str "x")] [⟨str "x", str "a"⟩, ⟨str "y", str "b"⟩]).1.length
      = 2 := by
  exact (C8_verify_reports_and_outcome id [(str "a", str "x")]
    [⟨str "x", str "a"⟩, ⟨str "y", str "b"⟩]).1
